import Mathlib

/-!
# Verification of the tvparser normalization / merge / dedupe engine
  and the window-alignment algorithm

Shallow embedding of `src/tvparser/core.py` and `src/tvparser/timeutils.py`.

Modelling conventions:
* A pandas cell is `Cell`: `null` (NaN / pd.NA), `num q` (a numeric value,
  exact rational standing for the int64/float64/Int64/Float64 value), or
  `str s` (an object-dtype string).  The pandas dtype tag itself is erased:
  all claims are about values.
* A DataFrame is a `Table`: an ordered list of (column-name, list-of-cells)
  pairs.  The implicit integer row index of pandas is the list position;
  `reset_index(drop=True)` is therefore the identity and is not modelled.
* `pd.to_numeric(errors="coerce")` is `toNumeric`: numeric strings parse,
  anything else coerces to `null`.
* `astype("Int64")` on a numeric column raises when a value is non-integral
  ("cannot safely cast"); `astype("int64")` raises when a value is missing.
  Fallible operations return `Except TVError`.
-/

namespace TVParser

/-- A single cell of a DataFrame: missing (NaN / pd.NA), numeric, or string. -/
inductive Cell where
  | null : Cell
  | num (q : Rat) : Cell
  | str (s : String) : Cell
deriving DecidableEq

/-- A DataFrame: ordered columns, each a name together with its cells.
Well-formed tables have all columns of equal length; operations are
nevertheless total, padding with `null` (pandas alignment). -/
structure Table where
  cols : List (String × List Cell)
deriving DecidableEq

/-- Number of rows: length of the first column (0 when there are no columns). -/
def nRows (t : Table) : Nat :=
  match t.cols with
  | [] => 0
  | c :: _ => c.2.length

/-- `df.empty`: true when the frame has no columns or no rows. -/
def isEmpty (t : Table) : Bool :=
  t.cols.isEmpty || nRows t == 0

/-- `c in df.columns`. -/
def hasCol (t : Table) (c : String) : Bool :=
  t.cols.any (fun p => p.1 == c)

/-- `df[c]`: cells of the first column named `c`. -/
def getCol (t : Table) (c : String) : Option (List Cell) :=
  (t.cols.find? (fun p => p.1 == c)).map Prod.snd

/-- `df[c]` with a default for totality. -/
def getColD (t : Table) (c : String) : List Cell :=
  (getCol t c).getD []

/-- `df[c] = vs` on a frame whose column names are unique: replace the cells
of column `c` in place, keeping column order. -/
def setCol (t : Table) (c : String) (vs : List Cell) : Table :=
  ⟨t.cols.map (fun p => if p.1 == c then (p.1, vs) else p)⟩

/-- `df.loc[idxs]` for a list of row positions: take, in order, row `i` of
every column (missing positions read as `null`). -/
def selectRows (t : Table) (idxs : List Nat) : Table :=
  ⟨t.cols.map (fun p => (p.1, idxs.map (fun i => p.2.getD i Cell.null)))⟩

/-- Helper for `dedupFirst`: drop the elements already seen. -/
def dedupFirstAux {α : Type} [DecidableEq α] : List α → List α → List α
  | [], _ => []
  | a :: as, seen =>
    if a ∈ seen then dedupFirstAux as seen
    else a :: dedupFirstAux as (a :: seen)

/-- First-occurrence deduplication, the key order of a Python `dict` built by
insertion (`groups.setdefault(...)`) and of `pd.concat` column alignment. -/
def dedupFirst {α : Type} [DecidableEq α] (l : List α) : List α :=
  dedupFirstAux l []

/-- Error taxonomy of `tvparser.core` (each Python exception kind is one
variant): `MissingColumnsError`, the `ValueError` naming an unknown dedupe
strategy, pandas cast errors (`TypeError`/`ValueError` from `astype`), and
the `KeyError` from indexing a missing column. -/
inductive TVError where
  | missingColumns (cols : List String) : TVError
  | unknownStrategy (strategy : String) : TVError
  | castError (msg : String) : TVError
  | keyError (col : String) : TVError
deriving DecidableEq

/-- Python's `str.strip()` on a character list: drop whitespace from both
ends (the standard whitespace characters; exotic ones are not modelled). -/
def stripChars (l : List Char) : List Char :=
  ((l.dropWhile Char.isWhitespace).reverse.dropWhile Char.isWhitespace).reverse

/-- Python's `str.strip()`. -/
def pyStrip (s : String) : String := String.mk (stripChars s.data)

/-- Python's `str.lower()` (ASCII case mapping). -/
def pyLower (s : String) : String := String.mk (s.data.map Char.toLower)

/-- Python's `str.split(sep)` for a one-character separator, on character
lists (the source only splits on `"/"`, `":"` and `"."`). -/
def pySplit (sep : Char) (l : List Char) : List (List Char) :=
  match l with
  | [] => [[]]
  | c :: rest =>
    let r := pySplit sep rest
    if c = sep then [] :: r
    else
      match r with
      | [] => [[c]]
      | g :: gs => (c :: g) :: gs

/-- Parse a non-empty all-digit character list as a natural number. -/
def pyToNat? (l : List Char) : Option Nat :=
  if l.isEmpty then none
  else if l.all Char.isDigit then
    some (l.foldl (fun acc c => acc * 10 + (c.toNat - '0'.toNat)) 0)
  else none

/-- Signed-integer parsing of a character list (an optional `-`/`+` sign
followed by digits), the core of Python's `int(str)`. -/
def pyToInt? (l : List Char) : Option Int :=
  match l with
  | '-' :: rest => (pyToNat? rest).map (fun n => -(n : Int))
  | '+' :: rest => (pyToNat? rest).map (fun n => (n : Int))
  | _ => (pyToNat? l).map (fun n => (n : Int))

/-- Python's `int(str)`: strips surrounding whitespace, then parses an
optionally signed decimal integer. -/
def pyInt (l : List Char) : Option Int := pyToInt? (stripChars l)

/-- Model of numeric-string parsing as done by `pd.to_numeric`:
an optional sign, digits, optionally a decimal point and more digits
(surrounding whitespace is stripped). Anything else fails. -/
def parseNumeric (s : String) : Option Rat :=
  let t := stripChars s.data
  match pyToInt? t with
  | some i => some (i : Rat)
  | none =>
    match pySplit '.' t with
    | [a, b] =>
      match pyToInt? a, pyToNat? b with
      | some ia, some nb =>
        let den : Nat := 10 ^ b.length
        if a.head? = some '-' then some (mkRat (ia * (den : Int) - (nb : Int)) den)
        else some (mkRat (ia * (den : Int) + (nb : Int)) den)
      | _, _ => none
    | _ => none

/-- `pd.to_numeric(cell, errors="coerce")`: numbers pass through, strings
parse or become missing, missing stays missing. -/
def toNumeric (c : Cell) : Cell :=
  match c with
  | .null => .null
  | .num q => .num q
  | .str s =>
    match parseNumeric s with
    | some q => .num q
    | none => .null

/-- The numeric value of a cell, `none` for missing / non-numeric cells. -/
def numVal (c : Cell) : Option Rat :=
  match c with
  | .num q => some q
  | _ => none

/-- `series.astype("Int64")` on an already-numeric series: fails when some
value is non-integral ("cannot safely cast"), keeps missing values. -/
def astypeInt64 (cells : List Cell) : Except TVError (List Cell) :=
  if cells.any (fun c => match c with | .num q => q.den ≠ 1 | _ => false) then
    .error (.castError "cannot safely cast non-equivalent values to Int64")
  else
    .ok cells

/-- Equality of `Except` results is decidable; lets concrete runs of the
fallible operations be checked by `decide`. -/
def exceptDecEq {ε α : Type} [DecidableEq ε] [DecidableEq α] :
    DecidableEq (Except ε α)
  | .error e, .error f =>
    if h : e = f then .isTrue (by rw [h])
    else .isFalse (by intro hh; cases hh; exact h rfl)
  | .error _, .ok _ => .isFalse (by intro h; cases h)
  | .ok _, .error _ => .isFalse (by intro h; cases h)
  | .ok a, .ok b =>
    if h : a = b then .isTrue (by rw [h])
    else .isFalse (by intro hh; cases hh; exact h rfl)

instance {ε α : Type} [DecidableEq ε] [DecidableEq α] :
    DecidableEq (Except ε α) := exceptDecEq

section Core

/-- `REQUIRED_COLUMNS` of `core.py`. -/
def REQUIRED_COLUMNS : List String :=
  ["time", "open", "high", "low", "close", "volume"]

/-- `COLUMN_ALIASES` of `core.py`. -/
def COLUMN_ALIASES : List (String × String) :=
  [("timestamp", "time"), ("datetime", "time"), ("date", "time"), ("t", "time"),
   ("o", "open"), ("open", "open"),
   ("h", "high"), ("high", "high"),
   ("l", "low"), ("low", "low"),
   ("c", "close"), ("close", "close"),
   ("v", "volume"), ("vol", "volume"), ("volume", "volume")]

/-- Default indicator names auto-detected when `indicators is None`. -/
def INDICATOR_DEFAULTS : List String := ["ema", "vwap", "atr"]

/-- `_canonicalize_columns` applied to one name: strip + lowercase, then map
through the alias table; unknown names pass through lowercased. -/
def canonName (s : String) : String :=
  let low := pyLower (pyStrip s)
  ((COLUMN_ALIASES.find? (fun p => p.1 == low)).map Prod.snd).getD low

/-- `df.rename(columns=_canonicalize_columns(df.columns))`. -/
def renameCanonical (t : Table) : Table :=
  ⟨t.cols.map (fun p => (canonName p.1, p.2))⟩

/-- First non-null cell of a row slice, scanning left to right
(`sub.bfill(axis=1).iloc[:, 0]`). -/
def firstNonNull : List Cell → Cell
  | [] => .null
  | .null :: rest => firstNonNull rest
  | c :: _ => c

/-- `_collapse_duplicate_columns`: group columns by (renamed) name in first
occurrence order; a group of one passes through, a larger group coalesces
per row to the first non-null value left to right. -/
def collapseDuplicateColumns (t : Table) : Table :=
  let names := dedupFirst (t.cols.map Prod.fst)
  ⟨names.map (fun nm =>
    let group := (t.cols.filter (fun p => p.1 == nm)).map Prod.snd
    match group with
    | [single] => (nm, single)
    | _ =>
      (nm, (List.range (nRows t)).map (fun i =>
        firstNonNull (group.map (fun vs => vs.getD i Cell.null)))))⟩

/-- Insert into a sorted list of rationals (helper for the median). -/
def insertSorted (x : Rat) : List Rat → List Rat
  | [] => [x]
  | y :: ys => if x ≤ y then x :: y :: ys else y :: insertSorted x ys

/-- Insertion sort on rationals. -/
def sortRats (l : List Rat) : List Rat := l.foldr insertSorted []

/-- The exact mean `(a + b) / 2` of two rationals, computed directly from
numerators and denominators. -/
def ratAvg (a b : Rat) : Rat :=
  mkRat (a.num * (b.den : Int) + b.num * (a.den : Int)) (a.den * b.den * 2)

/-- `series.median(skipna=True)` over the non-missing values: middle element
for odd length, mean of the two middle elements for even length. -/
def ratMedian (l : List Rat) : Rat :=
  let s := sortRats l
  let n := s.length
  if n % 2 = 1 then s.getD (n / 2) 0
  else ratAvg (s.getD (n / 2 - 1) 0) (s.getD (n / 2) 0)

/-- `numeric // 1000` on one cell: floor division by 1000 of a numeric
value (`⌊q/1000⌋ = q.num.fdiv (1000 * q.den)`, always integral afterwards),
missing passes through. -/
def msToS (c : Cell) : Cell :=
  match c with
  | .num q => .num ((Int.fdiv q.num (1000 * (q.den : Int)) : Int) : Rat)
  | c => c

/-- `_detect_and_normalize_time_series`: coerce to numeric; if everything is
missing return the all-missing column unconverted; otherwise compare the
single whole-column median against 1e12 and either floor-divide every value
by 1000 (ms→s, always integral, so the Int64 cast cannot fail) or cast the
values as-is to Int64. -/
def detectAndNormalizeTimeSeries (cells : List Cell) :
    Except TVError (List Cell × Bool) :=
  let numeric := cells.map toNumeric
  let vals := numeric.filterMap numVal
  if vals.isEmpty then .ok (numeric, false)
  else if ratMedian vals > ((10 ^ 12 : Int) : Rat) then
    .ok (numeric.map msToS, true)
  else do
    let casted ← astypeInt64 numeric
    .ok (casted, false)

/-- `_coerce_indicator_columns`: on a non-empty frame, coerce to numeric the
default indicator names present (when `indicators` is the `None` sentinel)
or the requested names present (unknown requests silently ignored). -/
def coerceIndicators (t : Table) (indicators : Option (List String)) : Table :=
  if isEmpty t then t
  else
    let toCheck :=
      match indicators with
      | none => INDICATOR_DEFAULTS.filter (fun c => hasCol t c)
      | some inds => inds.filter (fun c => hasCol t c)
    toCheck.foldl (fun acc c => setCol acc c ((getColD acc c).map toNumeric)) t

/-- Row `i` has no missing value in any of the six required columns. -/
def rowComplete (t : Table) (i : Nat) : Bool :=
  REQUIRED_COLUMNS.all (fun c => (getColD t c).getD i Cell.null != Cell.null)

/-- `work.dropna(subset=REQUIRED_COLUMNS)`. -/
def dropIncompleteRows (t : Table) : Table :=
  selectRows t ((List.range (nRows t)).filter (rowComplete t))

/-- The empty canonical frame `pd.DataFrame(columns=REQUIRED_COLUMNS)`. -/
def emptyCanonical : Table := ⟨REQUIRED_COLUMNS.map (fun c => (c, []))⟩

/-- The final `work["time"].astype("int64")`, guarded by
`"time" in work.columns and not work["time"].isna().all()`: performed when
some time value is present, and raising when a missing value remains
(int64 is non-nullable).  Values are already integral at this point, so the
cast itself changes nothing in the value model. -/
def finalTimeCast (t : Table) : Except TVError Table :=
  if hasCol t "time" && !((getColD t "time").all (fun c => c == Cell.null)) then
    if (getColD t "time").any (fun c => c == Cell.null) then
      .error (.castError "cannot convert NA to int64")
    else .ok t
  else .ok t

/-- `core.normalize` (the `df is None` guard is not modelled: tables are
always present in the embedding). -/
def normalize (t : Table) (dropIncomplete : Bool := true)
    (indicators : Option (List String) := none) : Except TVError Table :=
  if isEmpty t then .ok emptyCanonical
  else
    let work := collapseDuplicateColumns (renameCanonical t)
    let missing := REQUIRED_COLUMNS.filter (fun c => !hasCol work c)
    if !missing.isEmpty then .error (.missingColumns missing)
    else do
      let td ← detectAndNormalizeTimeSeries (getColD work "time")
      let work := setCol work "time" td.1
      let work := ["open", "high", "low", "close"].foldl
        (fun w c => setCol w c ((getColD w c).map toNumeric)) work
      let vol ← astypeInt64 ((getColD work "volume").map toNumeric)
      let work := setCol work "volume" vol
      let work := if dropIncomplete then dropIncompleteRows work else work
      let work := coerceIndicators work indicators
      finalTimeCast work

/-- Insert into a sorted list of row positions. -/
def insertNat (x : Nat) : List Nat → List Nat
  | [] => [x]
  | y :: ys => if x ≤ y then x :: y :: ys else y :: insertNat x ys

/-- Ascending sort of row positions (`sort_index`). -/
def sortNat (l : List Nat) : List Nat := l.foldr insertNat []

/-- Surviving positions of `drop_duplicates(subset=["time"], keep="last")`:
position `i` survives iff no later row has an equal time cell
(missing compares equal to missing, as in pandas drop_duplicates). -/
def keepLastIndices (times : List Cell) : List Nat :=
  (List.range times.length).filter (fun i =>
    (List.range times.length).all (fun j =>
      decide (j ≤ i) || decide (times.getD j Cell.null ≠ times.getD i Cell.null)))

/-- Surviving positions of `drop_duplicates(subset=["time"], keep="first")`. -/
def keepFirstIndices (times : List Cell) : List Nat :=
  (List.range times.length).filter (fun i =>
    (List.range times.length).all (fun j =>
      decide (i ≤ j) || decide (times.getD j Cell.null ≠ times.getD i Cell.null)))

/-- Positions (with their numeric volume) of the rows of one `groupby("time")`
group: time cell equal to `key` and volume present and numeric.  Rows whose
volume is missing are excluded, as in `idxmax(skipna=True)`. -/
def groupCandidates (times vols : List Cell) (key : Cell) : List (Nat × Rat) :=
  (List.range times.length).filterMap (fun i =>
    if times.getD i Cell.null == key then
      (numVal (vols.getD i Cell.null)).map (fun q => (i, q))
    else none)

/-- `idxmax`: fold keeping the strictly larger volume, so ties resolve to the
first occurrence. -/
def argmaxFirst (p : Nat × Rat) (l : List (Nat × Rat)) : Nat × Rat :=
  l.foldl (fun best x => if x.2 > best.2 then x else best) p

/-- `df.groupby("time")["volume"].idxmax()` for one group key: the position
of the first row attaining the maximal volume, or `none` when every row of
the group has missing volume (the entry `.dropna()` removes). -/
def groupMaxIdx (times vols : List Cell) (key : Cell) : Option Nat :=
  match groupCandidates times vols key with
  | [] => none
  | p :: rest => some (argmaxFirst p rest).1

/-- `df.groupby("time")["volume"].idxmax().dropna()` followed by
`df.loc[idx].sort_index()`: one surviving position per non-missing group key
(missing group keys are dropped by groupby), in ascending position order. -/
def maxVolumeIndices (times vols : List Cell) : List Nat :=
  let keys := dedupFirst (times.filter (fun c => c != Cell.null))
  sortNat (keys.filterMap (groupMaxIdx times vols))

/-- `core.deduplicate` (the `df is None` guard is not modelled).  The
`MissingColumnsError("time required for deduplication")` is rendered as
`missingColumns ["time"]`; indexing the absent `volume` column under
`max_volume` is the pandas `KeyError`. -/
def deduplicate (t : Table) (strategy : String := "last") : Except TVError Table :=
  if isEmpty t then .ok t
  else if !hasCol t "time" then .error (.missingColumns ["time"])
  else if strategy == "last" then
    .ok (selectRows t (keepLastIndices (getColD t "time")))
  else if strategy == "first" then
    .ok (selectRows t (keepFirstIndices (getColD t "time")))
  else if strategy == "max_volume" then
    match getCol t "volume" with
    | none => .error (.keyError "volume")
    | some vols => .ok (selectRows t (maxVolumeIndices (getColD t "time") vols))
  else .error (.unknownStrategy strategy)

/-- The cell is an integer value. -/
def isIntCell (x : Cell) : Bool :=
  match x with
  | .num q => q.den == 1
  | _ => false

/-- The cell is a numeric value or missing (a nullable-float column). -/
def isNumOrNullCell (x : Cell) : Bool :=
  match x with
  | .num _ => true
  | .null => true
  | _ => false

/-- The cell is an integer value or missing (a nullable-integer column). -/
def isIntOrNullCell (x : Cell) : Bool :=
  x == Cell.null || isIntCell x

/-- The canonical schema of the spec's data model (§3): every column name
appears exactly once and is already canonical (canonicalization is the
identity on it), the six required columns are present, the frame is
rectangular, `time` holds integers, `open/high/low/close` hold nullable
numerics and `volume` holds nullable integers. -/
def CanonicalSchema (t : Table) : Prop :=
  (t.cols.map Prod.fst).Nodup ∧
  (∀ nm ∈ t.cols.map Prod.fst, canonName nm = nm) ∧
  (∀ c ∈ REQUIRED_COLUMNS, hasCol t c = true) ∧
  (∀ p ∈ t.cols, p.2.length = nRows t) ∧
  (getColD t "time").all isIntCell = true ∧
  (∀ c, c ∈ ["open", "high", "low", "close"] →
    (getColD t c).all isNumOrNullCell = true) ∧
  (getColD t "volume").all isIntOrNullCell = true

instance instDecidableCanonicalSchema (t : Table) :
    Decidable (CanonicalSchema t) := by
  unfold CanonicalSchema
  infer_instance

/-- `pd.concat(dfs, ignore_index=True)`: union of column names in first
occurrence order; a frame missing a column contributes missing cells for its
rows. -/
def concatTables (ts : List Table) : Table :=
  let names := dedupFirst ((ts.map (fun t => t.cols.map Prod.fst)).flatten)
  ⟨names.map (fun nm =>
    (nm, (ts.map (fun t =>
      match getCol t nm with
      | some vs => (List.range (nRows t)).map (fun i => vs.getD i Cell.null)
      | none => List.replicate (nRows t) Cell.null)).flatten))⟩

/-- Sort key order used by `sort_values("time", ascending=asc)`: numeric
cells by value (reversed when descending), missing cells last in either
order (`na_position="last"`).  String against numeric would raise in pandas
and is given an arbitrary order here; no claim reaches that case. -/
def timeLe (asc : Bool) (a b : Cell) : Bool :=
  match a, b with
  | .null, b => b == Cell.null
  | _, .null => true
  | .num p, .num q => if asc then decide (p ≤ q) else decide (q ≤ p)
  | .num _, .str _ => true
  | .str _, .num _ => false
  | .str a, .str b => if asc then decide (a ≤ b) else decide (b ≤ a)

/-- Stable insertion into a list of (position, time-cell) pairs. -/
def insertByKey (asc : Bool) (x : Nat × Cell) :
    List (Nat × Cell) → List (Nat × Cell)
  | [] => [x]
  | y :: ys =>
    if timeLe asc x.2 y.2 then x :: y :: ys else y :: insertByKey asc x ys

/-- `df.sort_values("time", ascending=asc).reset_index(drop=True)`. -/
def sortByTime (t : Table) (asc : Bool) : Table :=
  let times := getColD t "time"
  let pairs := (List.range (nRows t)).map (fun i => (i, times.getD i Cell.null))
  selectRows t ((pairs.foldr (insertByKey asc) []).map Prod.fst)

/-- `core.merge_frames` over already-loaded tables.  Loading a frame from a
file path goes through the I/O collaborator (`io.read_csv`) and is outside
the core; the `item is None` skip is modelled by `Option`. -/
def mergeFrames (frames : List (Option Table)) (dedupeStrategy : String := "last")
    (dropIncomplete : Bool := true) (sortOrder : String := "asc")
    (indicators : Option (List String) := none) : Except TVError Table := do
  let norms ← (frames.filterMap id).mapM
    (fun raw => normalize raw dropIncomplete indicators)
  let dfs := norms.filter (fun d => !isEmpty d)
  if dfs.isEmpty then .ok emptyCanonical
  else
    let combined := concatTables dfs
    let deduped ← deduplicate combined dedupeStrategy
    let asc := sortOrder == "asc"
    if hasCol deduped "time" && !isEmpty deduped then
      .ok (sortByTime deduped asc)
    else .ok deduped

end Core

section TimeUtils

/-- `_parse_date`: split `MM/DD/YY` or `MM/DD/YYYY` on `/` (after stripping),
parse the three integers, map a two-digit year to 2000+YY; returns
`(year, month, day)`. -/
def parseDate (s : String) : Except String (Int × Int × Int) :=
  match pySplit '/' (stripChars s.data) with
  | [m, d, y] =>
    match pyInt m, pyInt d, pyInt y with
    | some mo, some da, some yy =>
      .ok (if yy < 100 then 2000 + yy else yy, mo, da)
    | _, _, _ => .error "invalid literal for int"
  | _ => .error "date must be MM/DD/YY or MM/DD/YYYY"

/-- `_parse_time`: split `HH:MM` on `:` (after stripping), parse the two
integers, validate `0 <= hour < 24` and `0 <= minute < 60`. -/
def parseTime (s : String) : Except String (Int × Int) :=
  match pySplit ':' (stripChars s.data) with
  | [hs, ms] =>
    match pyInt hs, pyInt ms with
    | some hour, some minute =>
      if 0 ≤ hour ∧ hour < 24 ∧ 0 ≤ minute ∧ minute < 60 then .ok (hour, minute)
      else .error "invalid hour or minute"
    | _, _ => .error "invalid literal for int"
  | _ => .error "time must be HH:MM"

/-- Days from 1970-01-01 to the given proleptic-Gregorian civil date
(Howard Hinnant's `days_from_civil`, the arithmetic behind
`datetime.timestamp()` for aware UTC datetimes). -/
def daysFromCivil (y m d : Int) : Int :=
  let y := if m ≤ 2 then y - 1 else y
  let era := Int.fdiv y 400
  let yoe := y - era * 400
  let mp := Int.fdiv (m + 9) 12 * 12
  let doy := Int.fdiv (153 * (m + 9 - mp) + 2) 5 + d - 1
  let doe := yoe * 365 + Int.fdiv yoe 4 - Int.fdiv yoe 100 + doy
  era * 146097 + doe - 719468

/-- Number of days in a month of the proleptic Gregorian calendar
(the validation `datetime.__new__` performs on its `day` argument). -/
def daysInMonth (y m : Int) : Int :=
  if m = 2 then
    if Int.emod y 4 = 0 ∧ (Int.emod y 100 ≠ 0 ∨ Int.emod y 400 = 0) then 29 else 28
  else if m = 4 ∨ m = 6 ∨ m = 9 ∨ m = 11 then 30
  else 31

/-- `datetime(year, month, day, ...)` argument validation: datetime.MINYEAR
is 1, MAXYEAR is 9999. -/
def validDate (y m d : Int) : Prop :=
  1 ≤ y ∧ y ≤ 9999 ∧ 1 ≤ m ∧ m ≤ 12 ∧ 1 ≤ d ∧ d ≤ daysInMonth y m

instance (y m d : Int) : Decidable (validDate y m d) := by
  unfold validDate; infer_instance

/-- Day number of 9999-12-31, the last constructible `datetime`. -/
def maxCivilDay : Int := daysFromCivil 9999 12 31

/-- `timeutils.to_timestamp` specialised to the UTC code path
(`tz is None or tz == "UTC"` resolves to `timezone.utc`; the claims under
verification all use UTC).  An aware UTC datetime's `timestamp()` is exact
epoch arithmetic. -/
def toTimestamp (dateStr timeStr : String) : Except String Int := do
  let (y, mo, da) ← parseDate dateStr
  let (h, mi) ← parseTime timeStr
  if validDate y mo da then
    .ok (86400 * daysFromCivil y mo da + 3600 * h + 60 * mi)
  else .error "date value out of range"

/-- `timeutils.window_start_end` on the UTC path: both endpoints on the
given date; when `end <= start` the end datetime is rebuilt on the next
calendar day (`+ timedelta(days=1)`, which in UTC adds exactly 86400
seconds and raises `OverflowError` past year 9999). -/
def windowStartEnd (dateStr startTime endTime : String) (toMs : Bool := false) :
    Except String (Int × Int) := do
  let start ← toTimestamp dateStr startTime
  let e0 ← toTimestamp dateStr endTime
  let e ←
    if e0 ≤ start then do
      let (y, mo, da) ← parseDate dateStr
      let (eh, em) ← parseTime endTime
      if daysFromCivil y mo da + 1 ≤ maxCivilDay then
        pure (86400 * (daysFromCivil y mo da + 1) + 3600 * eh + 60 * em)
      else .error "date value out of range"
    else pure e0
  if toMs then .ok (start * 1000, e * 1000) else .ok (start, e)

/-- `timeutils.SECONDS_PER_DAY`. -/
def SECONDS_PER_DAY : Int := 86400

/-- `timeutils.align_into_window`, with the Python early-return flow made
explicit: in range returns unchanged; below range shifts forward by the
least whole number of days reaching `start_ts` if that lands inside;
otherwise (and symmetrically above range, shifting backward) falls through
to returning `ts` unchanged. -/
def alignIntoWindow (ts startTs endTs : Int) : Int :=
  if startTs ≤ ts ∧ ts ≤ endTs then ts
  else
    let fwd : Option Int :=
      if ts < startTs then
        let steps := Int.fdiv (startTs - ts + SECONDS_PER_DAY - 1) SECONDS_PER_DAY
        let cand := ts + steps * SECONDS_PER_DAY
        if cand ≤ endTs then some cand else none
      else none
    match fwd with
    | some v => v
    | none =>
      if ts > endTs then
        let steps := Int.fdiv (ts - endTs + SECONDS_PER_DAY - 1) SECONDS_PER_DAY
        let cand := ts - steps * SECONDS_PER_DAY
        if startTs ≤ cand then cand else ts
      else ts

end TimeUtils

/-! ## Shared lemmas about the table model -/

theorem exbind_ok {ε α β : Type} (a : α) (f : α → Except ε β) :
    (Except.ok a >>= f) = f a := rfl

theorem exbind_err {ε α β : Type} (e : ε) (f : α → Except ε β) :
    ((Except.error e : Except ε α) >>= f) = Except.error e := rfl

theorem expure_bind {ε α β : Type} (a : α) (f : α → Except ε β) :
    ((pure a : Except ε α) >>= f) = f a := rfl

theorem mem_dedupFirstAux {α : Type} [DecidableEq α] (l : List α) :
    ∀ (seen : List α) (x : α),
      x ∈ dedupFirstAux l seen ↔ x ∈ l ∧ x ∉ seen := by
  induction l with
  | nil => intro seen x; simp [dedupFirstAux]
  | cons a as ih =>
    intro seen x
    by_cases ha : a ∈ seen
    · rw [dedupFirstAux, if_pos ha, ih]
      constructor
      · rintro ⟨h1, h2⟩
        exact ⟨List.mem_cons_of_mem a h1, h2⟩
      · rintro ⟨h1, h2⟩
        rcases List.mem_cons.mp h1 with rfl | h1
        · exact absurd ha h2
        · exact ⟨h1, h2⟩
    · rw [dedupFirstAux, if_neg ha]
      simp only [List.mem_cons, ih, List.mem_cons, not_or]
      constructor
      · rintro (rfl | ⟨h1, h2, h3⟩)
        · exact ⟨Or.inl rfl, ha⟩
        · exact ⟨Or.inr h1, h3⟩
      · rintro ⟨rfl | h1, h2⟩
        · exact Or.inl rfl
        · by_cases hx : x = a
          · exact Or.inl hx
          · exact Or.inr ⟨h1, hx, h2⟩

theorem dedupFirst_mem {α : Type} [DecidableEq α] (l : List α) (x : α) :
    x ∈ dedupFirst l ↔ x ∈ l := by
  rw [dedupFirst, mem_dedupFirstAux]
  simp

theorem dedupFirstAux_nodup {α : Type} [DecidableEq α] (l : List α) :
    ∀ seen : List α, (dedupFirstAux l seen).Nodup := by
  induction l with
  | nil => intro seen; simp [dedupFirstAux]
  | cons a as ih =>
    intro seen
    by_cases ha : a ∈ seen
    · rw [dedupFirstAux, if_pos ha]
      exact ih seen
    · rw [dedupFirstAux, if_neg ha]
      rw [List.nodup_cons]
      refine ⟨fun hmem => ?_, ih (a :: seen)⟩
      rw [mem_dedupFirstAux] at hmem
      exact hmem.2 (List.mem_cons_self a seen)

theorem dedupFirst_nodup {α : Type} [DecidableEq α] (l : List α) :
    (dedupFirst l).Nodup := dedupFirstAux_nodup l []

theorem dedupFirstAux_eq_self {α : Type} [DecidableEq α] (l : List α) :
    ∀ seen : List α, l.Nodup → (∀ x ∈ l, x ∉ seen) →
      dedupFirstAux l seen = l := by
  induction l with
  | nil => intro seen _ _; rfl
  | cons a as ih =>
    intro seen hnd hs
    rw [List.nodup_cons] at hnd
    rw [dedupFirstAux, if_neg (hs a (List.mem_cons_self a as))]
    congr 1
    apply ih (a :: seen) hnd.2
    intro x hx
    rw [List.mem_cons, not_or]
    exact ⟨fun hxa => hnd.1 (hxa ▸ hx), hs x (List.mem_cons_of_mem a hx)⟩

theorem dedupFirst_eq_self {α : Type} [DecidableEq α] (l : List α)
    (h : l.Nodup) : dedupFirst l = l :=
  dedupFirstAux_eq_self l [] h (by simp)

theorem hasCol_true_iff (t : Table) (c : String) :
    hasCol t c = true ↔ ∃ vs, getCol t c = some vs := by
  simp only [hasCol, getCol, List.any_eq_true, Option.map_eq_some']
  constructor
  · rintro ⟨p, hp, hc⟩
    have hsome : (t.cols.find? (fun p => p.1 == c)).isSome := by
      rw [List.find?_isSome]
      exact ⟨p, hp, hc⟩
    obtain ⟨q, hq⟩ := Option.isSome_iff_exists.mp hsome
    exact ⟨q.2, q, hq, rfl⟩
  · rintro ⟨vs, q, hq, _⟩
    exact ⟨q, List.mem_of_find?_eq_some hq,
      List.find?_some (p := fun (r : String × List Cell) => r.1 == c) hq⟩

theorem getCol_of_hasCol_false (t : Table) (c : String)
    (h : hasCol t c = false) : getCol t c = none := by
  rcases hgc : getCol t c with _ | vs
  · rfl
  · rw [(hasCol_true_iff t c).mpr ⟨vs, hgc⟩] at h
    cases h

theorem names_setCol (t : Table) (c : String) (vs : List Cell) :
    (setCol t c vs).cols.map Prod.fst = t.cols.map Prod.fst := by
  simp only [setCol, List.map_map]
  apply List.map_congr_left
  intro p _
  by_cases h : p.1 = c <;> simp [h]

theorem hasCol_setCol (t : Table) (c c' : String) (vs : List Cell) :
    hasCol (setCol t c vs) c' = hasCol t c' := by
  simp only [hasCol, setCol, List.any_map]
  congr 1
  funext p
  by_cases h : p.1 = c <;> simp [Function.comp, h]

theorem getCol_setCol_ne (t : Table) (c c' : String) (vs : List Cell)
    (h : c' ≠ c) : getCol (setCol t c vs) c' = getCol t c' := by
  simp only [getCol, setCol, List.find?_map]
  have hcomp : ((fun p : String × List Cell => p.1 == c') ∘
      (fun p : String × List Cell => if p.1 == c then (p.1, vs) else p))
      = fun p : String × List Cell => p.1 == c' := by
    funext p
    by_cases hp : p.1 = c <;> simp [Function.comp, hp]
  rw [hcomp]
  rcases hf : t.cols.find? (fun p => p.1 == c') with _ | p
  · rw [hf]; rfl
  · rw [hf]
    have hp' : p.1 = c' := by
      have hps := List.find?_some
        (p := fun (r : String × List Cell) => r.1 == c') hf
      simpa using hps
    simp [hp', h]

theorem getCol_setCol_same (t : Table) (c : String) (vs : List Cell)
    (h : hasCol t c = true) : getCol (setCol t c vs) c = some vs := by
  obtain ⟨ws, hws⟩ := (hasCol_true_iff t c).mp h
  simp only [getCol, setCol, List.find?_map]
  have hcomp : ((fun p : String × List Cell => p.1 == c) ∘
      (fun p : String × List Cell => if p.1 == c then (p.1, vs) else p))
      = fun p : String × List Cell => p.1 == c := by
    funext p
    by_cases hp : p.1 = c <;> simp [Function.comp, hp]
  rw [hcomp]
  simp only [getCol] at hws
  rcases hf : t.cols.find? (fun p => p.1 == c) with _ | p
  · rw [hf] at hws
    cases hws
  · rw [hf]
    have hp' : p.1 = c := by
      have hps := List.find?_some
        (p := fun (r : String × List Cell) => r.1 == c) hf
      simpa using hps
    simp [hp']

theorem cols_ext (l1 : List (String × List Cell)) :
    ∀ l2 : List (String × List Cell),
    l1.map Prod.fst = l2.map Prod.fst →
    (l1.map Prod.fst).Nodup →
    (∀ c, getCol ⟨l1⟩ c = getCol ⟨l2⟩ c) → l1 = l2 := by
  induction l1 with
  | nil =>
    intro l2 hn _ _
    cases l2 with
    | nil => rfl
    | cons q r2 => simp at hn
  | cons p r1 ih =>
    intro l2 hn hnd hg
    cases l2 with
    | nil => simp at hn
    | cons q r2 =>
      simp only [List.map_cons, List.cons.injEq] at hn
      obtain ⟨hpq, hrest⟩ := hn
      simp only [List.map_cons, List.nodup_cons] at hnd
      have hv : p.2 = q.2 := by
        have hgp := hg p.1
        have hq1 : (q.1 == p.1) = true := by simp [hpq.symm]
        simp only [getCol, List.find?_cons, beq_self_eq_true, hq1] at hgp
        simpa using hgp
      have htl : r1 = r2 := by
        apply ih r2 hrest hnd.2
        intro c
        by_cases hc : c = p.1
        · have h1 : List.find? (fun r => r.1 == c) r1 = none := by
            apply List.find?_eq_none.mpr
            intro x hx
            simp only [beq_iff_eq]
            intro hxc
            apply hnd.1
            rw [← hc, ← hxc]
            exact List.mem_map_of_mem Prod.fst hx
          have h2 : List.find? (fun r => r.1 == c) r2 = none := by
            apply List.find?_eq_none.mpr
            intro x hx
            simp only [beq_iff_eq]
            intro hxc
            apply hnd.1
            rw [← hc, ← hxc, hrest]
            exact List.mem_map_of_mem Prod.fst hx
          simp [getCol, h1, h2]
        · have hgc := hg c
          simp only [getCol, List.find?_cons] at hgc
          have hp : (p.1 == c) = false := by
            simp only [beq_eq_false_iff_ne, ne_eq]
            exact fun hh => hc hh.symm
          have hq : (q.1 == c) = false := by
            simp only [beq_eq_false_iff_ne, ne_eq]
            rw [← hpq]
            exact fun hh => hc hh.symm
          rw [hp, hq] at hgc
          exact hgc
      cases p
      cases q
      simp only at hpq hv
      rw [hpq, hv, htl]

theorem table_ext (t1 t2 : Table)
    (hn : t1.cols.map Prod.fst = t2.cols.map Prod.fst)
    (hnd : (t1.cols.map Prod.fst).Nodup)
    (hg : ∀ c, getCol t1 c = getCol t2 c) : t1 = t2 := by
  cases t1
  cases t2
  exact congrArg Table.mk (cols_ext _ _ hn hnd hg)

theorem setCol_self (t : Table) (c : String) (vs : List Cell)
    (hnd : (t.cols.map Prod.fst).Nodup) (h : getCol t c = some vs) :
    setCol t c vs = t := by
  apply table_ext
  · exact names_setCol t c vs
  · rw [names_setCol]
    exact hnd
  · intro c'
    by_cases hc : c' = c
    · subst hc
      rw [getCol_setCol_same t c' vs ((hasCol_true_iff t c').mpr ⟨vs, h⟩), h]
    · exact getCol_setCol_ne t c c' vs hc

theorem toNumeric_idem (c : Cell) : toNumeric (toNumeric c) = toNumeric c := by
  rcases c with _ | q | s
  · rfl
  · rfl
  · simp only [toNumeric]
    rcases parseNumeric s with _ | q <;> rfl

/-! ## Claim theorems -/

/-- C10: for every empty table, `deduplicate` returns it unchanged without
raising, for any strategy string and even with no `time` column — the
emptiness check precedes both the time-column requirement and the strategy
validation. -/
theorem deduplicate_empty_returns_input (t : Table) (strategy : String)
    (h : isEmpty t = true) : deduplicate t strategy = .ok t := by
  unfold deduplicate
  rw [h]
  rfl

/-- Witness for C10: an empty table with no `time` column and an unknown
strategy is returned unchanged. -/
theorem deduplicate_empty_returns_input_witness :
    deduplicate (Table.mk [("open", [])]) "bogus" =
      .ok (Table.mk [("open", [])]) :=
  deduplicate_empty_returns_input (Table.mk [("open", [])]) "bogus" (by decide)

/-- C9 (counterexample): the claim quantifies over every table, but an empty
table with an unrecognized strategy returns unchanged instead of failing
with the strategy `ValueError` — the emptiness shortcut fires first. -/
theorem deduplicate_unknown_strategy_empty_counterexample :
    deduplicate (Table.mk [("time", [])]) "bogus" =
      .ok (Table.mk [("time", [])]) := by decide

/-- C9 (amended): for every non-empty table that has a `time` column and
every strategy string other than "last", "first" and "max_volume",
`deduplicate` fails with the `ValueError` naming the unknown strategy. -/
theorem deduplicate_unknown_strategy (t : Table) (strategy : String)
    (hne : isEmpty t = false) (ht : hasCol t "time" = true)
    (h1 : strategy ≠ "last") (h2 : strategy ≠ "first")
    (h3 : strategy ≠ "max_volume") :
    deduplicate t strategy = .error (.unknownStrategy strategy) := by
  unfold deduplicate
  rw [hne, ht]
  simp [h1, h2, h3]

/-- Witness for C9: a one-row table with strategy "bogus". -/
theorem deduplicate_unknown_strategy_witness :
    deduplicate (Table.mk [("time", [Cell.num 1])]) "bogus" =
      .error (.unknownStrategy "bogus") :=
  deduplicate_unknown_strategy (Table.mk [("time", [Cell.num 1])]) "bogus"
    (by decide) (by decide) (by decide) (by decide) (by decide)

/-- C7: for every non-empty table, if after canonicalization (rename and
duplicate-column collapse) some of the six required canonical columns are
absent, `normalize` fails with `MissingColumnsError` listing every missing
name (in required-column order), before any type coercion; in particular a
table with only a `time` column raises the error naming
open, high, low, close, volume. -/
theorem normalize_missing_columns (t : Table) (dI : Bool)
    (ind : Option (List String)) (hne : isEmpty t = false)
    (hm : REQUIRED_COLUMNS.filter
      (fun c => !hasCol (collapseDuplicateColumns (renameCanonical t)) c) ≠ []) :
    normalize t dI ind = .error (.missingColumns (REQUIRED_COLUMNS.filter
      (fun c => !hasCol (collapseDuplicateColumns (renameCanonical t)) c))) ∧
    normalize (Table.mk [("time", [Cell.num 1, Cell.num 2, Cell.num 3])]) dI ind
      = .error (.missingColumns ["open", "high", "low", "close", "volume"]) := by
  have key : ∀ u : Table, isEmpty u = false →
      REQUIRED_COLUMNS.filter
        (fun c => !hasCol (collapseDuplicateColumns (renameCanonical u)) c) ≠ [] →
      normalize u dI ind = .error (.missingColumns (REQUIRED_COLUMNS.filter
        (fun c => !hasCol (collapseDuplicateColumns (renameCanonical u)) c))) := by
    intro u hneu hmu
    unfold normalize
    have hE : (REQUIRED_COLUMNS.filter
        (fun c => !hasCol (collapseDuplicateColumns (renameCanonical u)) c)).isEmpty
        = false := by simpa using hmu
    simp [hneu, hE]
  refine ⟨key t hne hm, ?_⟩
  rw [key (Table.mk [("time", [Cell.num 1, Cell.num 2, Cell.num 3])])
    (by decide) (by decide)]
  congr 2

/-- Witness for C7: a table with only a `time` column. -/
theorem normalize_missing_columns_witness :
    normalize (Table.mk [("time", [Cell.num 1])]) true none =
      .error (.missingColumns ["open", "high", "low", "close", "volume"]) ∧
    normalize (Table.mk [("time", [Cell.num 1, Cell.num 2, Cell.num 3])]) true
      none = .error (.missingColumns ["open", "high", "low", "close", "volume"])
    := by
  have h := normalize_missing_columns (Table.mk [("time", [Cell.num 1])]) true
    none (by decide) (by decide)
  exact ⟨by rw [h.1]; decide, h.2⟩

/-- C5: for every integer `ts` and window with `start_ts <= end_ts`,
`align_into_window` returns `ts` unchanged inside the window; below the
window it adds the smallest whole number of 86400-second days reaching
`start_ts` and keeps the shifted value only when it is also `<= end_ts`;
symmetrically above the window it shifts backward by whole days; and the
result is always congruent to `ts` modulo 86400 (the time of day never
changes). -/
theorem align_into_window_spec (ts startTs endTs : Int)
    (h : startTs ≤ endTs) :
    (startTs ≤ ts ∧ ts ≤ endTs → alignIntoWindow ts startTs endTs = ts) ∧
    (ts < startTs →
      startTs ≤ ts + Int.fdiv (startTs - ts + SECONDS_PER_DAY - 1)
        SECONDS_PER_DAY * SECONDS_PER_DAY ∧
      ts + (Int.fdiv (startTs - ts + SECONDS_PER_DAY - 1) SECONDS_PER_DAY - 1)
        * SECONDS_PER_DAY < startTs ∧
      alignIntoWindow ts startTs endTs =
        (if ts + Int.fdiv (startTs - ts + SECONDS_PER_DAY - 1) SECONDS_PER_DAY
            * SECONDS_PER_DAY ≤ endTs then
          ts + Int.fdiv (startTs - ts + SECONDS_PER_DAY - 1) SECONDS_PER_DAY
            * SECONDS_PER_DAY
        else ts)) ∧
    (endTs < ts →
      ts - Int.fdiv (ts - endTs + SECONDS_PER_DAY - 1) SECONDS_PER_DAY
        * SECONDS_PER_DAY ≤ endTs ∧
      endTs < ts - (Int.fdiv (ts - endTs + SECONDS_PER_DAY - 1) SECONDS_PER_DAY
        - 1) * SECONDS_PER_DAY ∧
      alignIntoWindow ts startTs endTs =
        (if startTs ≤ ts - Int.fdiv (ts - endTs + SECONDS_PER_DAY - 1)
            SECONDS_PER_DAY * SECONDS_PER_DAY then
          ts - Int.fdiv (ts - endTs + SECONDS_PER_DAY - 1) SECONDS_PER_DAY
            * SECONDS_PER_DAY
        else ts)) ∧
    alignIntoWindow ts startTs endTs % SECONDS_PER_DAY = ts % SECONDS_PER_DAY
    := by
  have hconv : ∀ a : Int, Int.fdiv a 86400 = a / 86400 :=
    fun a => Int.fdiv_eq_ediv a (by norm_num)
  refine ⟨?_, ?_, ?_, ?_⟩
  · intro hin
    unfold alignIntoWindow
    rw [if_pos hin]
  · intro hlt
    unfold alignIntoWindow SECONDS_PER_DAY
    simp only [hconv]
    refine ⟨by omega, by omega, ?_⟩
    split_ifs <;> (try dsimp only) <;> first | rfl | omega
  · intro hgt
    unfold alignIntoWindow SECONDS_PER_DAY
    simp only [hconv]
    refine ⟨by omega, by omega, ?_⟩
    split_ifs <;> (try dsimp only) <;> first | rfl | omega
  · unfold alignIntoWindow SECONDS_PER_DAY
    simp only [hconv]
    split_ifs <;> (try dsimp only) <;> omega

/-- Witness for C5: the spec's alignment round trip — an entry at 01:30 UTC
on 10/13/24, one day before the 17:00→07:00 window, aligns forward by
exactly one day. -/
theorem align_into_window_spec_witness :
    alignIntoWindow 1728782100 1728838800 1728889200 = 1728868500 ∧
    alignIntoWindow 1728782100 1728838800 1728889200 % SECONDS_PER_DAY
      = 1728782100 % SECONDS_PER_DAY := by
  have h := align_into_window_spec 1728782100 1728838800 1728889200 (by decide)
  have h2 := (h.2.1 (by decide)).2.2
  rw [h2]
  exact ⟨by decide, by rw [h2] at h; exact h.2.2.2⟩

theorem parseTime_ok_bounds (s : String) (h mi : Int)
    (hp : parseTime s = .ok (h, mi)) :
    0 ≤ h ∧ h < 24 ∧ 0 ≤ mi ∧ mi < 60 := by
  unfold parseTime at hp
  split at hp
  · split at hp
    · split at hp
      · rename_i hour minute hcond
        injection hp with hpp
        injection hpp with h1 h2
        subst h1
        subst h2
        exact hcond
      · cases hp
    · cases hp
  · cases hp

theorem toTimestamp_ok_decomp (d tstr : String) (v : Int)
    (hv : toTimestamp d tstr = .ok v) :
    ∃ y mo da h mi, parseDate d = .ok (y, mo, da) ∧
      parseTime tstr = .ok (h, mi) ∧ validDate y mo da ∧
      v = 86400 * daysFromCivil y mo da + 3600 * h + 60 * mi := by
  unfold toTimestamp at hv
  rcases hpd : parseDate d with e | ⟨y, mo, da⟩ <;> rw [hpd] at hv
  · cases hv
  · rcases hpt : parseTime tstr with e | ⟨h, mi⟩ <;> rw [hpt] at hv
    · cases hv
    · simp only [exbind_ok] at hv
      split at hv
      · rename_i hvd
        injection hv with hv'
        exact ⟨y, mo, da, h, mi, rfl, rfl, hvd, hv'.symm⟩
      · cases hv

/-- C4: for every date string, pair of time strings and the UTC timezone,
whenever `window_start_end` succeeds it returns a pair with
`end_ts > start_ts`; the end timestamp equals the plain same-date end
timestamp when that already exceeds the start, and is moved to the next
calendar day (+86400 s in UTC) when it does not; and equal start and end
time strings yield a window of exactly 86400 seconds. -/
theorem window_start_end_spec (d st en : String) (s e : Int)
    (hw : windowStartEnd d st en false = .ok (s, e)) :
    s < e ∧ (st = en → e - s = 86400) ∧
    (∀ e0, toTimestamp d en = .ok e0 →
      (e0 ≤ s → e = e0 + 86400) ∧ (s < e0 → e = e0)) := by
  unfold windowStartEnd at hw
  rcases hst : toTimestamp d st with e1 | start <;> rw [hst] at hw
  · cases hw
  rcases hen : toTimestamp d en with e1 | e0 <;> rw [hen] at hw
  · cases hw
  simp only [exbind_ok] at hw
  obtain ⟨y, mo, da, sh, sm, hpd, hpts, hvd, hsval⟩ := toTimestamp_ok_decomp d st start hst
  obtain ⟨y2, mo2, da2, eh, em, hpd2, hpte, hvd2, heval⟩ := toTimestamp_ok_decomp d en e0 hen
  rw [hpd] at hpd2
  injection hpd2 with hpd2'
  injection hpd2' with hy hmoda
  injection hmoda with hmo hda
  subst hy; subst hmo; subst hda
  obtain ⟨hsh0, hsh, hsm0, hsm⟩ := parseTime_ok_bounds st sh sm hpts
  obtain ⟨heh0, heh, hem0, hem⟩ := parseTime_ok_bounds en eh em hpte
  by_cases hle : e0 ≤ start
  · rw [if_pos hle] at hw
    rw [hpd, hpte] at hw
    simp only [exbind_ok] at hw
    split at hw
    · simp only [expure_bind, exbind_ok, Bool.false_eq_true, if_false] at hw
      injection hw with hw'
      injection hw' with hws hwe
      subst hws
      have he : e = e0 + 86400 := by omega
      refine ⟨by omega, fun hsten => ?_, fun e0' he0' => ?_⟩
      · rw [hsten] at hpts
        rw [hpts] at hpte
        injection hpte with hpte'
        injection hpte' with hh hm
        omega
      · injection he0' with he0''
        subst he0''
        exact ⟨fun _ => he, fun hgt => absurd hle (not_le.mpr hgt)⟩
    · cases hw
  · rw [if_neg hle] at hw
    simp only [expure_bind, exbind_ok, Bool.false_eq_true, if_false] at hw
    injection hw with hw'
    injection hw' with hws hwe
    subst hws; subst hwe
    refine ⟨by omega, fun hsten => ?_, fun e0' he0' => ?_⟩
    · rw [hsten] at hpts
      rw [hpts] at hpte
      injection hpte with hpte'
      injection hpte' with hh hm
      omega
    · injection he0' with he0''
      subst he0''
      exact ⟨fun hc => absurd hc hle, fun _ => rfl⟩

/-- Witness for C4: the degenerate full-day window
`window_start_end("10/13/24","00:00","00:00","UTC")` spans exactly 86400
seconds, with `end_ts > start_ts`. -/
theorem window_start_end_spec_witness :
    (1728777600 : Int) < 1728864000 ∧
    ((1728864000 : Int) - 1728777600 = 86400) := by
  have h := window_start_end_spec "10/13/24" "00:00" "00:00"
    1728777600 1728864000 (by decide)
  exact ⟨h.1, h.2.1 rfl⟩

theorem toNumeric_shape (c : Cell) :
    toNumeric c = Cell.null ∨ ∃ q : Rat, toNumeric c = Cell.num q := by
  rcases c with _ | q | s
  · exact Or.inl rfl
  · exact Or.inr ⟨q, rfl⟩
  · simp only [toNumeric]
    rcases parseNumeric s with _ | q
    · exact Or.inl rfl
    · exact Or.inr ⟨q, rfl⟩

/-- C1: unit detection in `_detect_and_normalize_time_series` happens once
per table through a single median of the numeric time values.  When no value
is numeric the column is returned all-missing with conversion skipped; when
the median exceeds 1e12 every value is floor-divided by 1000; otherwise
(for integral values, as produced by integer timestamps) all values are
kept as-is.  In particular `normalize` turns a table whose time median is
1736722800000 into one with time 1736722800. -/
theorem detect_time_unit_spec (cells : List Cell) :
    ((cells.map toNumeric).filterMap numVal = [] →
      detectAndNormalizeTimeSeries cells = .ok (cells.map toNumeric, false) ∧
      ∀ c ∈ cells.map toNumeric, c = Cell.null) ∧
    ((cells.map toNumeric).filterMap numVal ≠ [] →
      ratMedian ((cells.map toNumeric).filterMap numVal) >
        ((10 ^ 12 : Int) : Rat) →
      detectAndNormalizeTimeSeries cells =
        .ok ((cells.map toNumeric).map msToS, true)) ∧
    ((cells.map toNumeric).filterMap numVal ≠ [] →
      ¬ ratMedian ((cells.map toNumeric).filterMap numVal) >
        ((10 ^ 12 : Int) : Rat) →
      (∀ q ∈ (cells.map toNumeric).filterMap numVal, q.den = 1) →
      detectAndNormalizeTimeSeries cells = .ok (cells.map toNumeric, false)) ∧
    normalize (Table.mk [("time", [Cell.num 1736722800000]),
      ("open", [Cell.num 1]), ("high", [Cell.num 2]), ("low", [Cell.num 0]),
      ("close", [Cell.num 1]), ("volume", [Cell.num 1])]) true none =
    .ok (Table.mk [("time", [Cell.num 1736722800]),
      ("open", [Cell.num 1]), ("high", [Cell.num 2]), ("low", [Cell.num 0]),
      ("close", [Cell.num 1]), ("volume", [Cell.num 1])]) := by
  refine ⟨?_, ?_, ?_, by decide⟩
  · intro hv
    have hE : ((cells.map toNumeric).filterMap numVal).isEmpty = true := by
      simp [hv]
    constructor
    · unfold detectAndNormalizeTimeSeries
      dsimp only
      rw [hE]
      rfl
    · intro c hc
      rcases List.mem_map.mp hc with ⟨c0, hc0, rfl⟩
      rcases toNumeric_shape c0 with hn | ⟨q, hq⟩
      · exact hn
      · exfalso
        have hmem : q ∈ (cells.map toNumeric).filterMap numVal :=
          List.mem_filterMap.mpr ⟨toNumeric c0, List.mem_map_of_mem _ hc0,
            by rw [hq]; rfl⟩
        rw [hv] at hmem
        cases hmem
  · intro h1 h2
    have hE : ((cells.map toNumeric).filterMap numVal).isEmpty = false := by
      simpa using h1
    unfold detectAndNormalizeTimeSeries
    dsimp only
    rw [hE]
    simp only [Bool.false_eq_true, if_false]
    rw [if_pos h2]
  · intro h1 h2 h3
    have hE : ((cells.map toNumeric).filterMap numVal).isEmpty = false := by
      simpa using h1
    have hA : astypeInt64 (cells.map toNumeric) = .ok (cells.map toNumeric)
        := by
      unfold astypeInt64
      have hany : ¬ ((cells.map toNumeric).any
          (fun c => match c with | .num q => q.den ≠ 1 | _ => false) = true)
          := by
        rw [List.any_eq_true]
        rintro ⟨c, hc, hfc⟩
        rcases List.mem_map.mp hc with ⟨c0, hc0, rfl⟩
        rcases toNumeric_shape c0 with hn | ⟨q, hq⟩
        · rw [hn] at hfc
          simp at hfc
        · rw [hq] at hfc
          simp only [decide_eq_true_eq] at hfc
          have hmem : q ∈ (cells.map toNumeric).filterMap numVal :=
            List.mem_filterMap.mpr ⟨toNumeric c0, List.mem_map_of_mem _ hc0,
              by rw [hq]; rfl⟩
          exact hfc (h3 q hmem)
      rw [if_neg hany]
    unfold detectAndNormalizeTimeSeries
    dsimp only
    rw [hE]
    simp only [Bool.false_eq_true, if_false]
    rw [if_neg h2, hA]
    rfl

/-- Witness for C1: a one-element millisecond-scale time column (median
1736722800000 > 1e12) is floor-divided by 1000. -/
theorem detect_time_unit_spec_witness :
    detectAndNormalizeTimeSeries [Cell.num 1736722800000] =
      .ok ([Cell.num 1736722800], true) := by
  have h := (detect_time_unit_spec [Cell.num 1736722800000]).2.1
    (by decide) (by decide)
  rw [h]
  decide

theorem argmaxFirst_cons (p a : Nat × Rat) (as : List (Nat × Rat)) :
    argmaxFirst p (a :: as) = argmaxFirst (if a.2 > p.2 then a else p) as := rfl

theorem argmaxFirst_spec (l : List (Nat × Rat)) :
    ∀ p : Nat × Rat, (argmaxFirst p l = p ∨ argmaxFirst p l ∈ l) ∧
      p.2 ≤ (argmaxFirst p l).2 ∧ ∀ x ∈ l, x.2 ≤ (argmaxFirst p l).2 := by
  induction l with
  | nil =>
    intro p
    refine ⟨Or.inl rfl, le_refl _, ?_⟩
    intro x hx
    cases hx
  | cons a as ih =>
    intro p
    rw [argmaxFirst_cons]
    obtain ⟨hmem, hle, hall⟩ := ih (if a.2 > p.2 then a else p)
    refine ⟨?_, ?_, ?_⟩
    · rcases hmem with h | h
      · rw [h]
        split_ifs with hgt
        · exact Or.inr (List.mem_cons_self a as)
        · exact Or.inl rfl
      · exact Or.inr (List.mem_cons_of_mem a h)
    · refine le_trans ?_ hle
      split_ifs with hgt
      · exact le_of_lt hgt
      · exact le_refl _
    · intro x hx
      rcases List.mem_cons.mp hx with rfl | hx
      · refine le_trans ?_ hle
        split_ifs with hgt
        · exact le_refl _
        · exact not_lt.mp hgt
      · exact hall x hx

theorem mem_groupCandidates (times vols : List Cell) (key : Cell)
    (i : Nat) (q : Rat) :
    (i, q) ∈ groupCandidates times vols key ↔
      i < times.length ∧ times.getD i Cell.null = key ∧
        numVal (vols.getD i Cell.null) = some q := by
  unfold groupCandidates
  rw [List.mem_filterMap]
  constructor
  · rintro ⟨j, hj, hf⟩
    rw [List.mem_range] at hj
    by_cases hk : times.getD j Cell.null = key
    · rw [if_pos (by simpa using hk)] at hf
      rcases ho : numVal (vols.getD j Cell.null) with _ | r <;> rw [ho] at hf
      · cases hf
      · simp only [Option.map_some'] at hf
        injection hf with hf'
        injection hf' with h1 h2
        subst h1
        subst h2
        exact ⟨hj, hk, ho⟩
    · rw [if_neg (by simpa using hk)] at hf
      cases hf
  · rintro ⟨hi, hk, hv⟩
    refine ⟨i, List.mem_range.mpr hi, ?_⟩
    rw [if_pos (by simpa using hk), hv]
    rfl

theorem groupMaxIdx_some_spec (times vols : List Cell) (key : Cell) (i : Nat)
    (h : groupMaxIdx times vols key = some i) :
    i < times.length ∧ times.getD i Cell.null = key ∧
    ∃ q, numVal (vols.getD i Cell.null) = some q ∧
      ∀ j, j < times.length → times.getD j Cell.null = key →
        ∀ r, numVal (vols.getD j Cell.null) = some r → r ≤ q := by
  unfold groupMaxIdx at h
  rcases hgc : groupCandidates times vols key with _ | ⟨p, rest⟩ <;>
    rw [hgc] at h
  · cases h
  · injection h with h'
    obtain ⟨hmem, hle, hall⟩ := argmaxFirst_spec rest p
    have hm_mem : argmaxFirst p rest ∈ groupCandidates times vols key := by
      rw [hgc]
      rcases hmem with hh | hh
      · rw [hh]
        exact List.mem_cons_self _ _
      · exact List.mem_cons_of_mem _ hh
    have hm := (mem_groupCandidates times vols key (argmaxFirst p rest).1
      (argmaxFirst p rest).2).mp (by simpa using hm_mem)
    subst h'
    refine ⟨hm.1, hm.2.1, (argmaxFirst p rest).2, hm.2.2, ?_⟩
    intro j hj hjk r hr
    have hjr : (j, r) ∈ groupCandidates times vols key :=
      (mem_groupCandidates times vols key j r).mpr ⟨hj, hjk, hr⟩
    rw [hgc] at hjr
    rcases List.mem_cons.mp hjr with heq | hmem2
    · have : r = p.2 := congrArg Prod.snd heq
      rw [this]
      exact hle
    · exact hall _ hmem2

theorem groupCandidates_ne_nil (times vols : List Cell) (key : Cell)
    (j : Nat) (r : Rat) (hj : j < times.length)
    (hjk : times.getD j Cell.null = key)
    (hr : numVal (vols.getD j Cell.null) = some r) :
    ∃ i, groupMaxIdx times vols key = some i := by
  have hjr : (j, r) ∈ groupCandidates times vols key :=
    (mem_groupCandidates times vols key j r).mpr ⟨hj, hjk, hr⟩
  unfold groupMaxIdx
  rcases hgc : groupCandidates times vols key with _ | ⟨p, rest⟩
  · rw [hgc] at hjr
    cases hjr
  · exact ⟨(argmaxFirst p rest).1, rfl⟩

theorem mem_insertNat (x : Nat) (l : List Nat) (y : Nat) :
    y ∈ insertNat x l ↔ y = x ∨ y ∈ l := by
  induction l with
  | nil => simp [insertNat]
  | cons a as ih =>
    unfold insertNat
    split_ifs with hc
    · simp
    · simp only [List.mem_cons, ih]
      tauto

theorem mem_sortNat (l : List Nat) (y : Nat) : y ∈ sortNat l ↔ y ∈ l := by
  induction l with
  | nil => simp [sortNat]
  | cons a as ih =>
    unfold sortNat at ih ⊢
    rw [List.foldr_cons, mem_insertNat, ih, List.mem_cons]

theorem mem_maxVolumeIndices (times vols : List Cell) (i : Nat) :
    i ∈ maxVolumeIndices times vols ↔
      ∃ key, key ∈ dedupFirst (times.filter (fun c => c != Cell.null)) ∧
        groupMaxIdx times vols key = some i := by
  unfold maxVolumeIndices
  rw [mem_sortNat, List.mem_filterMap]

/-- C2: `deduplicate` with strategy `max_volume` succeeds on every non-empty
table having `time` and `volume` columns, keeping exactly one row per
distinct (non-missing) time value — a row whose volume is numeric and
maximal within its group, missing volumes being excluded from the max — and
keeping no row at all for a group whose volumes are all missing. -/
theorem deduplicate_max_volume_spec (t : Table) (times vols : List Cell)
    (hne : isEmpty t = false)
    (ht : getCol t "time" = some times)
    (hv : getCol t "volume" = some vols) :
    deduplicate t "max_volume" =
      .ok (selectRows t (maxVolumeIndices times vols)) ∧
    (∀ i ∈ maxVolumeIndices times vols,
      i < times.length ∧
      ∃ q, numVal (vols.getD i Cell.null) = some q ∧
        ∀ j, j < times.length →
          times.getD j Cell.null = times.getD i Cell.null →
          ∀ r, numVal (vols.getD j Cell.null) = some r → r ≤ q) ∧
    (∀ k, k ≠ Cell.null → k ∈ times →
      (∃ j, j < times.length ∧ times.getD j Cell.null = k ∧
        numVal (vols.getD j Cell.null) ≠ none) →
      ∃ i, i ∈ maxVolumeIndices times vols ∧ times.getD i Cell.null = k ∧
        ∀ i2, i2 ∈ maxVolumeIndices times vols →
          times.getD i2 Cell.null = k → i2 = i) ∧
    (∀ k, (∀ j, j < times.length → times.getD j Cell.null = k →
        numVal (vols.getD j Cell.null) = none) →
      ∀ i ∈ maxVolumeIndices times vols, times.getD i Cell.null ≠ k) := by
  refine ⟨?_, ?_, ?_, ?_⟩
  · have hc : hasCol t "time" = true := (hasCol_true_iff t "time").mpr ⟨_, ht⟩
    unfold deduplicate
    rw [hne, hc]
    simp only [Bool.not_true, Bool.false_eq_true, if_false]
    rw [hv]
    have hgd : getColD t "time" = times := by rw [getColD, ht]; rfl
    simp [hgd]
  · intro i hi
    obtain ⟨key, _, hgm⟩ := (mem_maxVolumeIndices times vols i).mp hi
    obtain ⟨hlen, hkey, q, hq, hmax⟩ :=
      groupMaxIdx_some_spec times vols key i hgm
    exact ⟨hlen, q, hq, by rw [hkey]; exact hmax⟩
  · intro k hknn hkmem ⟨j, hj, hjk, hjv⟩
    rcases ho : numVal (vols.getD j Cell.null) with _ | r
    · exact absurd ho hjv
    obtain ⟨i, hgm⟩ := groupCandidates_ne_nil times vols k j r hj hjk ho
    have hkeymem : k ∈ dedupFirst (times.filter (fun c => c != Cell.null)) := by
      rw [dedupFirst_mem, List.mem_filter]
      exact ⟨hkmem, by simpa using hknn⟩
    obtain ⟨hlen, hkey, _⟩ := groupMaxIdx_some_spec times vols k i hgm
    refine ⟨i, (mem_maxVolumeIndices times vols i).mpr ⟨k, hkeymem, hgm⟩,
      hkey, ?_⟩
    intro i2 hi2 hk2
    obtain ⟨key2, _, hgm2⟩ := (mem_maxVolumeIndices times vols i2).mp hi2
    obtain ⟨_, hkey2, _⟩ := groupMaxIdx_some_spec times vols key2 i2 hgm2
    rw [hk2] at hkey2
    rw [← hkey2] at hgm2
    rw [hgm] at hgm2
    injection hgm2 with h
    exact h.symm
  · intro k hall i hi hik
    obtain ⟨key, _, hgm⟩ := (mem_maxVolumeIndices times vols i).mp hi
    obtain ⟨hlen, hkey, q, hq, _⟩ := groupMaxIdx_some_spec times vols key i hgm
    have := hall i hlen (by rw [hik])
    rw [this] at hq
    cases hq

/-- Witness for C2: from rows `{time:100, volume:null}` and
`{time:100, volume:5}`, only the `volume:5` row survives. -/
theorem deduplicate_max_volume_spec_witness :
    deduplicate (Table.mk [("time", [Cell.num 100, Cell.num 100]),
        ("volume", [Cell.null, Cell.num 5])]) "max_volume" =
      .ok (Table.mk [("time", [Cell.num 100]), ("volume", [Cell.num 5])])
    := by
  have h := (deduplicate_max_volume_spec
    (Table.mk [("time", [Cell.num 100, Cell.num 100]),
      ("volume", [Cell.null, Cell.num 5])])
    [Cell.num 100, Cell.num 100] [Cell.null, Cell.num 5]
    (by decide) (by decide) (by decide)).1
  rw [h]
  decide

/-! ## Lemmas threading columns through the normalize pipeline -/

theorem map_toNumeric_idem (l : List Cell) :
    (l.map toNumeric).map toNumeric = l.map toNumeric := by
  rw [List.map_map]
  apply List.map_congr_left
  intro c _
  exact toNumeric_idem c

theorem detect_ok_all_null (cells : List Cell)
    (h : (cells.map toNumeric).filterMap numVal = []) :
    detectAndNormalizeTimeSeries cells = .ok (cells.map toNumeric, false) := by
  have hE : ((cells.map toNumeric).filterMap numVal).isEmpty = true := by
    simp [h]
  unfold detectAndNormalizeTimeSeries
  dsimp only
  rw [hE]
  rfl

theorem detect_ok_ms (cells : List Cell)
    (h1 : (cells.map toNumeric).filterMap numVal ≠ [])
    (h2 : ratMedian ((cells.map toNumeric).filterMap numVal) >
      ((10 ^ 12 : Int) : Rat)) :
    detectAndNormalizeTimeSeries cells =
      .ok ((cells.map toNumeric).map msToS, true) := by
  have hE : ((cells.map toNumeric).filterMap numVal).isEmpty = false := by
    simpa using h1
  unfold detectAndNormalizeTimeSeries
  dsimp only
  rw [hE]
  simp only [Bool.false_eq_true, if_false]
  rw [if_pos h2]

theorem detect_ok_seconds (cells : List Cell)
    (h1 : (cells.map toNumeric).filterMap numVal ≠ [])
    (h2 : ¬ ratMedian ((cells.map toNumeric).filterMap numVal) >
      ((10 ^ 12 : Int) : Rat))
    (h3 : ∀ q ∈ (cells.map toNumeric).filterMap numVal, q.den = 1) :
    detectAndNormalizeTimeSeries cells = .ok (cells.map toNumeric, false)
    := by
  have hE : ((cells.map toNumeric).filterMap numVal).isEmpty = false := by
    simpa using h1
  have hA : astypeInt64 (cells.map toNumeric) = .ok (cells.map toNumeric)
      := by
    unfold astypeInt64
    have hany : ¬ ((cells.map toNumeric).any
        (fun c => match c with | .num q => q.den ≠ 1 | _ => false) = true)
        := by
      rw [List.any_eq_true]
      rintro ⟨c, hc, hfc⟩
      rcases List.mem_map.mp hc with ⟨c0, hc0, rfl⟩
      rcases toNumeric_shape c0 with hn | ⟨q, hq⟩
      · rw [hn] at hfc
        simp at hfc
      · rw [hq] at hfc
        simp only [decide_eq_true_eq] at hfc
        have hmem : q ∈ (cells.map toNumeric).filterMap numVal :=
          List.mem_filterMap.mpr ⟨toNumeric c0, List.mem_map_of_mem _ hc0,
            by rw [hq]; rfl⟩
        exact hfc (h3 q hmem)
    rw [if_neg hany]
  unfold detectAndNormalizeTimeSeries
  dsimp only
  rw [hE]
  simp only [Bool.false_eq_true, if_false]
  rw [if_neg h2, hA]
  rfl

theorem setCol_of_hasCol_false (t : Table) (c : String) (vs : List Cell)
    (h : hasCol t c = false) : setCol t c vs = t := by
  have hall := List.any_eq_false.mp h
  unfold setCol
  congr 1
  conv_rhs => rw [← List.map_id t.cols]
  apply List.map_congr_left
  intro p hp
  have hpc : (p.1 == c) = false := by
    have := hall p hp
    simpa using this
  simp [hpc]

theorem getCol_setCol_coerce (t : Table) (c : String) :
    getCol (setCol t c ((getColD t c).map toNumeric)) c
      = (getCol t c).map (List.map toNumeric) := by
  by_cases h : hasCol t c = true
  · rw [getCol_setCol_same t c _ h]
    obtain ⟨vs, hvs⟩ := (hasCol_true_iff t c).mp h
    rw [hvs, getColD, hvs]
    rfl
  · rw [Bool.not_eq_true] at h
    rw [setCol_of_hasCol_false t c _ h, getCol_of_hasCol_false t c h]
    rfl

theorem coerce_foldl_getCol (names : List String) :
    ∀ (t : Table) (c : String),
    getCol (names.foldl
      (fun acc c' => setCol acc c' ((getColD acc c').map toNumeric)) t) c
    = if c ∈ names then (getCol t c).map (List.map toNumeric)
      else getCol t c := by
  induction names with
  | nil =>
    intro t c
    simp
  | cons n rest ih =>
    intro t c
    rw [List.foldl_cons, ih]
    by_cases hcr : c ∈ rest
    · rw [if_pos hcr, if_pos (List.mem_cons_of_mem n hcr)]
      by_cases hcn : c = n
      · subst hcn
        rw [getCol_setCol_coerce]
        rcases getCol t c with _ | vs
        · rfl
        · simp only [Option.map_some']
          rw [map_toNumeric_idem]
      · rw [getCol_setCol_ne t n c _ hcn]
    · rw [if_neg hcr]
      by_cases hcn : c = n
      · subst hcn
        rw [if_pos (List.mem_cons_self c rest), getCol_setCol_coerce]
      · rw [if_neg (by
          rw [List.mem_cons]
          rintro (h | h)
          · exact hcn h
          · exact hcr h), getCol_setCol_ne t n c _ hcn]

theorem astypeInt64_ok_of_integral (cells : List Cell)
    (h : ∀ q ∈ cells.filterMap numVal, q.den = 1) :
    astypeInt64 cells = .ok cells := by
  unfold astypeInt64
  rw [if_neg]
  rw [List.any_eq_true]
  rintro ⟨c, hc, hfc⟩
  rcases c with _ | q | s
  · simp at hfc
  · simp only [decide_eq_true_eq] at hfc
    exact hfc (h q (List.mem_filterMap.mpr ⟨Cell.num q, hc, rfl⟩))
  · simp at hfc

theorem map_toNumeric_id_of_shape (l : List Cell)
    (h : ∀ c ∈ l, c = Cell.null ∨ ∃ q, c = Cell.num q) :
    l.map toNumeric = l := by
  conv_rhs => rw [← List.map_id l]
  apply List.map_congr_left
  intro c hc
  rcases h c hc with rfl | ⟨q, rfl⟩
  · rfl
  · rfl

theorem finalTimeCast_ok_of_homog (t : Table)
    (h : ∀ vs, getCol t "time" = some vs →
      (∀ c ∈ vs, c = Cell.null) ∨ (∀ c ∈ vs, c ≠ Cell.null)) :
    finalTimeCast t = .ok t := by
  unfold finalTimeCast
  by_cases hc : hasCol t "time" = true
  · obtain ⟨vs, hvs⟩ := (hasCol_true_iff t "time").mp hc
    have hgd : getColD t "time" = vs := by rw [getColD, hvs]; rfl
    rw [hc, hgd]
    rcases h vs hvs with hall | hnone
    · have hb : vs.all (fun c => c == Cell.null) = true := by
        rw [List.all_eq_true]
        intro c hcm
        simpa using hall c hcm
      rw [hb]
      simp
    · by_cases hemp : vs.all (fun c => c == Cell.null) = true
      · rw [hemp]
        simp
      · rw [Bool.not_eq_true] at hemp
        rw [hemp]
        have hany : vs.any (fun c => c == Cell.null) = false := by
          rw [List.any_eq_false]
          intro c hcm
          simpa using hnone c hcm
        simp only [Bool.true_and, Bool.not_false]
        rw [if_pos trivial, hany]
        simp
  · rw [Bool.not_eq_true] at hc
    rw [hc]
    simp

theorem hasCol_of_required_filter_nil (w : Table)
    (hcols : REQUIRED_COLUMNS.filter (fun c => !hasCol w c) = [])
    (c : String) (hc : c ∈ REQUIRED_COLUMNS) : hasCol w c = true := by
  have hcc := List.filter_eq_nil_iff.mp hcols c hc
  simpa using hcc

theorem getCol_coerceIndicators_shape (t : Table) (ind : Option (List String))
    (c : String) (vs : List Cell) (hvs : getCol t c = some vs)
    (hsh : ∀ x ∈ vs, x = Cell.null ∨ ∃ q, x = Cell.num q) :
    getCol (coerceIndicators t ind) c = some vs := by
  unfold coerceIndicators
  by_cases hie : isEmpty t = true
  · rw [hie]
    simp only [if_true]
    exact hvs
  · rw [Bool.not_eq_true] at hie
    rw [hie]
    simp only [Bool.false_eq_true, if_false]
    rcases ind with _ | inds <;>
      dsimp only <;>
      rw [coerce_foldl_getCol] <;>
      split_ifs with hmem <;>
      try exact hvs
    all_goals
      rw [hvs]
      simp only [Option.map_some']
      rw [map_toNumeric_id_of_shape vs hsh]

/-- C3 (counterexample): the claim asserts `normalize` with
`drop_incomplete=False` never raises once the six canonical columns are
present, but a `time` column mixing a non-numeric entry (coerced to
missing) with a numeric one reaches the non-nullable int64 cast, which
raises. -/
theorem normalize_no_drop_counterexample :
    normalize (Table.mk [("time", [Cell.str "x", Cell.num 100]),
      ("open", [Cell.num 1, Cell.num 1]), ("high", [Cell.num 1, Cell.num 1]),
      ("low", [Cell.num 1, Cell.num 1]), ("close", [Cell.num 1, Cell.num 1]),
      ("volume", [Cell.num 1, Cell.num 1])]) false none =
    .error (.castError "cannot convert NA to int64") := by decide

/-- C3 (amended): with `drop_incomplete=False`, for every non-empty table
containing all six canonical columns after canonicalization, `normalize`
returns a table without raising provided the coerced `time` column does not
mix missing and present values (the final non-nullable int64 cast, which is
performed whenever some time value is present, raises on such a mix) and
the coerced `time` and `volume` values are integral (the nullable-Int64
casts raise on non-integral values).  OHLC coercion failures become nulls,
never errors. -/
theorem normalize_no_drop_total (t : Table) (ind : Option (List String))
    (hne : isEmpty t = false)
    (hcols : REQUIRED_COLUMNS.filter (fun c =>
      !hasCol (collapseDuplicateColumns (renameCanonical t)) c) = [])
    (htime : (∀ c ∈ (getColD (collapseDuplicateColumns (renameCanonical t))
        "time").map toNumeric, c = Cell.null) ∨
      ((∀ c ∈ (getColD (collapseDuplicateColumns (renameCanonical t))
        "time").map toNumeric, c ≠ Cell.null) ∧
       (ratMedian (((getColD (collapseDuplicateColumns (renameCanonical t))
          "time").map toNumeric).filterMap numVal) > ((10 ^ 12 : Int) : Rat) ∨
        ∀ q ∈ ((getColD (collapseDuplicateColumns (renameCanonical t))
          "time").map toNumeric).filterMap numVal, q.den = 1)))
    (hvol : ∀ q ∈ ((getColD (collapseDuplicateColumns (renameCanonical t))
      "volume").map toNumeric).filterMap numVal, q.den = 1) :
    ∃ u, normalize t false ind = .ok u := by
  have hshape_tc : ∀ c ∈ (getColD (collapseDuplicateColumns
      (renameCanonical t)) "time").map toNumeric,
      c = Cell.null ∨ ∃ q, c = Cell.num q := by
    intro c hc
    rcases List.mem_map.mp hc with ⟨c0, _, rfl⟩
    exact toNumeric_shape c0
  obtain ⟨ts, flag, hdet, hts_shape, hts_homog⟩ :
      ∃ ts flag, detectAndNormalizeTimeSeries
          (getColD (collapseDuplicateColumns (renameCanonical t)) "time") =
          .ok (ts, flag) ∧
        (∀ c ∈ ts, c = Cell.null ∨ ∃ q, c = Cell.num q) ∧
        ((∀ c ∈ ts, c = Cell.null) ∨ (∀ c ∈ ts, c ≠ Cell.null)) := by
    rcases hvv : ((getColD (collapseDuplicateColumns (renameCanonical t))
        "time").map toNumeric).filterMap numVal with _ | ⟨v0, vrest⟩
    · refine ⟨_, false, detect_ok_all_null _ hvv, hshape_tc, Or.inl ?_⟩
      intro c hc
      rcases hshape_tc c hc with rfl | ⟨q, rfl⟩
      · rfl
      · exfalso
        have hq : q ∈ ((getColD (collapseDuplicateColumns (renameCanonical t))
            "time").map toNumeric).filterMap numVal :=
          List.mem_filterMap.mpr ⟨Cell.num q, hc, rfl⟩
        rw [hvv] at hq
        cases hq
    · have hBfull : (∀ c ∈ (getColD (collapseDuplicateColumns
          (renameCanonical t)) "time").map toNumeric, c ≠ Cell.null) ∧
          (ratMedian (((getColD (collapseDuplicateColumns (renameCanonical t))
            "time").map toNumeric).filterMap numVal) >
              ((10 ^ 12 : Int) : Rat) ∨
           ∀ q ∈ ((getColD (collapseDuplicateColumns (renameCanonical t))
            "time").map toNumeric).filterMap numVal, q.den = 1) := by
        rcases htime with hA | hB
        · exfalso
          have hv0 : v0 ∈ ((getColD (collapseDuplicateColumns
              (renameCanonical t)) "time").map toNumeric).filterMap numVal
              := by
            rw [hvv]
            exact List.mem_cons_self _ _
          obtain ⟨c, hc, hcv⟩ := List.mem_filterMap.mp hv0
          rw [hA c hc] at hcv
          cases hcv
        · exact hB
      obtain ⟨hnn, hmi⟩ := hBfull
      by_cases hmed : ratMedian (((getColD (collapseDuplicateColumns
          (renameCanonical t)) "time").map toNumeric).filterMap numVal) >
          ((10 ^ 12 : Int) : Rat)
      · refine ⟨_, true, detect_ok_ms _ (by rw [hvv]; simp) hmed, ?_, Or.inr ?_⟩
        · intro c hc
          rcases List.mem_map.mp hc with ⟨c0, hc0, rfl⟩
          rcases hshape_tc c0 hc0 with rfl | ⟨q, rfl⟩
          · exact Or.inl rfl
          · exact Or.inr ⟨_, rfl⟩
        · intro c hc
          rcases List.mem_map.mp hc with ⟨c0, hc0, rfl⟩
          rcases hshape_tc c0 hc0 with rfl | ⟨q, rfl⟩
          · exact absurd rfl (hnn _ hc0)
          · intro hcon
            cases hcon
      · have hint := hmi.resolve_left hmed
        exact ⟨_, false, detect_ok_seconds _ (by rw [hvv]; simp) hmed hint,
          hshape_tc, Or.inr hnn⟩
  have hM : (REQUIRED_COLUMNS.filter (fun c =>
      !hasCol (collapseDuplicateColumns (renameCanonical t)) c)).isEmpty
      = true := by
    rw [hcols]
    rfl
  have htcol : hasCol (collapseDuplicateColumns (renameCanonical t)) "time"
      = true :=
    hasCol_of_required_filter_nil _ hcols "time" (by decide)
  unfold normalize
  rw [hne]
  simp only [Bool.false_eq_true, if_false, hM, Bool.not_true]
  rw [hdet, exbind_ok]
  dsimp only
  rw [show getColD (List.foldl
      (fun w c => setCol w c ((getColD w c).map toNumeric))
      (setCol (collapseDuplicateColumns (renameCanonical t)) "time" ts)
      ["open", "high", "low", "close"]) "volume"
    = getColD (collapseDuplicateColumns (renameCanonical t)) "volume" from by
      rw [getColD, coerce_foldl_getCol, if_neg (by decide),
        getCol_setCol_ne _ _ _ _ (by decide), getColD]]
  rw [astypeInt64_ok_of_integral _ hvol, exbind_ok]
  refine ⟨_, finalTimeCast_ok_of_homog _ ?_⟩
  intro vs hvs
  rw [getCol_coerceIndicators_shape _ ind "time" ts ?hts hts_shape] at hvs
  case hts =>
    rw [getCol_setCol_ne _ _ _ _ (by decide), coerce_foldl_getCol,
      if_neg (by decide)]
    exact getCol_setCol_same _ _ _ htcol
  injection hvs with hvs2
  subst hvs2
  exact hts_homog

/-- Witness for C3 (amended): a complete two-row table with
`drop_incomplete=False` normalizes without error. -/
theorem normalize_no_drop_total_witness :
    ∃ u, normalize (Table.mk [("time", [Cell.num 60, Cell.num 120]),
      ("open", [Cell.str "oops", Cell.num 1]),
      ("high", [Cell.num 2, Cell.num 2]),
      ("low", [Cell.num 0, Cell.num 0]),
      ("close", [Cell.num 1, Cell.num 1]),
      ("volume", [Cell.null, Cell.num 7])]) false none = .ok u :=
  normalize_no_drop_total (Table.mk [("time", [Cell.num 60, Cell.num 120]),
      ("open", [Cell.str "oops", Cell.num 1]),
      ("high", [Cell.num 2, Cell.num 2]),
      ("low", [Cell.num 0, Cell.num 0]),
      ("close", [Cell.num 1, Cell.num 1]),
      ("volume", [Cell.null, Cell.num 7])]) none
    (by decide) (by decide)
    (Or.inr (by decide))
    (by decide)

/-- C6: `merge_frames` skips null sources, normalizes each source
independently (propagating any normalization failure), drops sources that
normalize to empty, returns the empty canonical table when no source yields
rows, and otherwise concatenates the normalized tables in input order,
deduplicates with the given strategy and sorts by time per `sort_order`.
In particular merging tables with times [4000], [3940, 4000], [4060] under
`max_volume`/`asc` yields exactly the times [3940, 4000, 4060]. -/
theorem merge_frames_spec (frames : List (Option Table)) (strat : String)
    (dI : Bool) (so : String) (ind : Option (List String))
    (norms : List Table)
    (hnorm : (frames.filterMap id).mapM
      (fun raw => normalize raw dI ind) = .ok norms) :
    (norms.filter (fun d => !isEmpty d) = [] →
      mergeFrames frames strat dI so ind = .ok emptyCanonical) ∧
    (norms.filter (fun d => !isEmpty d) ≠ [] →
      mergeFrames frames strat dI so ind =
        (deduplicate (concatTables (norms.filter (fun d => !isEmpty d)))
            strat).map
          (fun d => if hasCol d "time" && !isEmpty d
            then sortByTime d (so == "asc") else d)) ∧
    mergeFrames (none :: frames) strat dI so ind =
      mergeFrames frames strat dI so ind ∧
    (mergeFrames
      [some (Table.mk [("time", [Cell.num 4000]), ("open", [Cell.num 40]),
        ("high", [Cell.num 41]), ("low", [Cell.num 39]),
        ("close", [Cell.num 40]), ("volume", [Cell.num 1])]),
       some (Table.mk [("time", [Cell.num 3940, Cell.num 4000]),
        ("open", [Cell.num 39, Cell.num 40]),
        ("high", [Cell.num 40, Cell.num 41]),
        ("low", [Cell.num 38, Cell.num 39]),
        ("close", [Cell.num 39, Cell.num 40]),
        ("volume", [Cell.num 2, Cell.num 3])]),
       some (Table.mk [("time", [Cell.num 4060]), ("open", [Cell.num 41]),
        ("high", [Cell.num 42]), ("low", [Cell.num 40]),
        ("close", [Cell.num 41]), ("volume", [Cell.num 4])])]
      "max_volume" true "asc" none).map (fun u => getColD u "time") =
      .ok [Cell.num 3940, Cell.num 4000, Cell.num 4060] := by
  refine ⟨?_, ?_, ?_, by decide⟩
  · intro hfe
    unfold mergeFrames
    rw [hnorm, exbind_ok]
    dsimp only
    rw [hfe]
    rfl
  · intro hfne
    have hie : (norms.filter (fun d => !isEmpty d)).isEmpty = false := by
      simpa using hfne
    unfold mergeFrames
    rw [hnorm, exbind_ok]
    dsimp only
    rw [hie]
    simp only [Bool.false_eq_true, if_false]
    rcases hd : deduplicate
        (concatTables (norms.filter (fun d => !isEmpty d))) strat
      with e | d
    · rfl
    · rw [exbind_ok]
      simp only [Except.map]
      by_cases hcnd : (hasCol d "time" && !isEmpty d) = true
      · rw [hcnd]
        simp
      · rw [Bool.not_eq_true] at hcnd
        rw [hcnd]
        simp
  · unfold mergeFrames
    rfl

/-- Witness for C6: merging a single empty source yields the empty
canonical table, not an error. -/
theorem merge_frames_spec_witness :
    mergeFrames [some (Table.mk []), none] "last" true "asc" none =
      .ok emptyCanonical :=
  (merge_frames_spec [some (Table.mk []), none] "last" true "asc" none
    [emptyCanonical] (by decide)).1 (by decide)

/-! ## Lemmas for the idempotence analysis (C8) -/

theorem renameCanonical_eq_self (t : Table)
    (h : ∀ nm ∈ t.cols.map Prod.fst, canonName nm = nm) :
    renameCanonical t = t := by
  unfold renameCanonical
  congr 1
  conv_rhs => rw [← List.map_id t.cols]
  apply List.map_congr_left
  intro p hp
  have hc := h p.1 (List.mem_map_of_mem Prod.fst hp)
  rw [hc]
  rfl

theorem filter_name_of_nodup (cols : List (String × List Cell)) :
    ∀ p, (cols.map Prod.fst).Nodup → p ∈ cols →
      cols.filter (fun r => r.1 == p.1) = [p] := by
  induction cols with
  | nil =>
    intro p _ hp
    cases hp
  | cons q rest ih =>
    intro p hnd hp
    rw [List.map_cons, List.nodup_cons] at hnd
    rcases List.mem_cons.mp hp with rfl | hp2
    · rw [List.filter_cons, if_pos (by simp)]
      have hrest : rest.filter (fun r => r.1 == p.1) = [] := by
        apply List.filter_eq_nil_iff.mpr
        intro r hr
        simp only [beq_iff_eq]
        intro hre
        exact hnd.1 (hre ▸ List.mem_map_of_mem Prod.fst hr)
      rw [hrest]
    · have hq : (q.1 == p.1) = false := by
        simp only [beq_eq_false_iff_ne, ne_eq]
        intro hqp
        exact hnd.1 (hqp ▸ List.mem_map_of_mem Prod.fst hp2)
      rw [List.filter_cons, hq]
      simp only [Bool.false_eq_true, if_false]
      exact ih p hnd.2 hp2

theorem collapse_of_nodup (t : Table)
    (hnd : (t.cols.map Prod.fst).Nodup) :
    collapseDuplicateColumns t = t := by
  unfold collapseDuplicateColumns
  dsimp only
  rw [dedupFirst_eq_self _ hnd]
  congr 1
  rw [List.map_map]
  conv_rhs => rw [← List.map_id t.cols]
  apply List.map_congr_left
  intro p hp
  simp only [Function.comp]
  rw [filter_name_of_nodup t.cols p hnd hp]
  rfl

theorem hasCol_iff_mem (t : Table) (c : String) :
    hasCol t c = true ↔ c ∈ t.cols.map Prod.fst := by
  unfold hasCol
  rw [List.any_eq_true]
  constructor
  · rintro ⟨p, hp, hpc⟩
    exact (beq_iff_eq.mp hpc) ▸ List.mem_map_of_mem Prod.fst hp
  · intro h
    rcases List.mem_map.mp h with ⟨p, hp, rfl⟩
    exact ⟨p, hp, by simp⟩

theorem hasCol_congr_names (t1 t2 : Table)
    (h : t1.cols.map Prod.fst = t2.cols.map Prod.fst) (c : String) :
    hasCol t1 c = hasCol t2 c := by
  by_cases h1 : hasCol t1 c = true
  · rw [h1]
    symm
    rw [hasCol_iff_mem, ← h]
    exact (hasCol_iff_mem t1 c).mp h1
  · have h2 : ¬ hasCol t2 c = true := by
      rw [hasCol_iff_mem, ← h]
      exact fun hh => h1 ((hasCol_iff_mem t1 c).mpr hh)
    rw [Bool.not_eq_true] at h1 h2
    rw [h1, h2]

theorem names_foldl_coerce (names : List String) :
    ∀ t : Table,
      ((names.foldl (fun acc c => setCol acc c ((getColD acc c).map toNumeric))
        t).cols.map Prod.fst) = t.cols.map Prod.fst := by
  induction names with
  | nil =>
    intro t
    rfl
  | cons n rest ih =>
    intro t
    rw [List.foldl_cons, ih, names_setCol]

theorem names_selectRows (t : Table) (idxs : List Nat) :
    (selectRows t idxs).cols.map Prod.fst = t.cols.map Prod.fst := by
  unfold selectRows
  rw [List.map_map]
  rfl

theorem getCol_selectRows (t : Table) (idxs : List Nat) (c : String) :
    getCol (selectRows t idxs) c =
      (getCol t c).map (fun vs => idxs.map (fun i => vs.getD i Cell.null))
    := by
  unfold getCol selectRows
  rw [List.find?_map]
  have hcomp : ((fun p : String × List Cell => p.1 == c) ∘
      (fun p : String × List Cell =>
        (p.1, idxs.map (fun i => p.2.getD i Cell.null))))
      = fun p : String × List Cell => p.1 == c := by
    funext p
    rfl
  rw [hcomp]
  rcases hf : t.cols.find? (fun p => p.1 == c) with _ | p <;> rw [hf] <;> rfl

theorem names_dropIncompleteRows (t : Table) :
    (dropIncompleteRows t).cols.map Prod.fst = t.cols.map Prod.fst := by
  unfold dropIncompleteRows
  exact names_selectRows _ _

theorem names_coerceIndicators (t : Table) (ind : Option (List String)) :
    (coerceIndicators t ind).cols.map Prod.fst = t.cols.map Prod.fst := by
  unfold coerceIndicators
  by_cases hie : isEmpty t = true
  · rw [hie]
    simp
  · rw [Bool.not_eq_true] at hie
    rw [hie]
    simp only [Bool.false_eq_true, if_false]
    rcases ind with _ | inds <;> exact names_foldl_coerce _ t

theorem nRows_setCol (t : Table) (c : String) (vs : List Cell)
    (h : ∀ ws, getCol t c = some ws → vs.length = ws.length) :
    nRows (setCol t c vs) = nRows t := by
  obtain ⟨cols⟩ := t
  rcases cols with _ | ⟨p, ps⟩
  · rfl
  · unfold nRows setCol
    simp only [List.map_cons]
    by_cases hpc : (p.1 == c) = true
    · rw [hpc]
      simp only [if_true]
      have hg : getCol ⟨p :: ps⟩ c = some p.2 := by
        unfold getCol
        rw [List.find?_cons, hpc]
        rfl
      exact h p.2 hg
    · rw [Bool.not_eq_true] at hpc
      rw [hpc]
      rfl

theorem rect_setCol (t : Table) (c : String) (vs : List Cell)
    (hr : ∀ p ∈ t.cols, p.2.length = nRows t)
    (h : ∀ ws, getCol t c = some ws → vs.length = ws.length) :
    ∀ p ∈ (setCol t c vs).cols, p.2.length = nRows (setCol t c vs) := by
  rw [nRows_setCol t c vs h]
  intro p hp
  unfold setCol at hp
  rcases List.mem_map.mp hp with ⟨p0, hp0, rfl⟩
  by_cases hpc : (p0.1 == c) = true
  · rw [hpc]
    simp only [if_true]
    have hcc : hasCol t c = true := by
      rw [hasCol_iff_mem]
      exact (beq_iff_eq.mp hpc) ▸ List.mem_map_of_mem Prod.fst hp0
    obtain ⟨ws, hws⟩ := (hasCol_true_iff t c).mp hcc
    have hlen := h ws hws
    have hwmem : ∃ p1 ∈ t.cols, p1.2 = ws := by
      unfold getCol at hws
      rcases hf : t.cols.find? (fun r => r.1 == c) with _ | p1 <;>
        rw [hf] at hws
      · cases hws
      · injection hws with hws2
        exact ⟨p1, List.mem_of_find?_eq_some hf, hws2⟩
      -- done
    obtain ⟨p1, hp1, rfl⟩ := hwmem
    rw [hlen]
    exact hr p1 hp1
  · rw [Bool.not_eq_true] at hpc
    rw [hpc]
    simp only [Bool.false_eq_true, if_false]
    exact hr p0 hp0

theorem rect_selectRows (t : Table) (idxs : List Nat) :
    ∀ p ∈ (selectRows t idxs).cols, p.2.length = nRows (selectRows t idxs)
    := by
  obtain ⟨cols⟩ := t
  rcases cols with _ | ⟨q, qs⟩
  · intro p hp
    cases hp
  · intro p hp
    unfold selectRows at hp ⊢
    rcases List.mem_map.mp hp with ⟨p0, _, rfl⟩
    unfold nRows
    simp

theorem rect_coerce_step (t : Table) (c : String)
    (hr : ∀ p ∈ t.cols, p.2.length = nRows t) :
    ∀ p ∈ (setCol t c ((getColD t c).map toNumeric)).cols,
      p.2.length = nRows (setCol t c ((getColD t c).map toNumeric)) := by
  apply rect_setCol t c _ hr
  intro ws hws
  rw [getColD, hws]
  simp

theorem rect_foldl_coerce (names : List String) :
    ∀ t : Table, (∀ p ∈ t.cols, p.2.length = nRows t) →
    ∀ p ∈ (names.foldl
      (fun acc c => setCol acc c ((getColD acc c).map toNumeric)) t).cols,
      p.2.length = nRows (names.foldl
        (fun acc c => setCol acc c ((getColD acc c).map toNumeric)) t) := by
  induction names with
  | nil =>
    intro t hr
    exact hr
  | cons n rest ih =>
    intro t hr
    rw [List.foldl_cons]
    exact ih _ (rect_coerce_step t n hr)

theorem rect_coerceIndicators (t : Table) (ind : Option (List String))
    (hr : ∀ p ∈ t.cols, p.2.length = nRows t) :
    ∀ p ∈ (coerceIndicators t ind).cols,
      p.2.length = nRows (coerceIndicators t ind) := by
  unfold coerceIndicators
  by_cases hie : isEmpty t = true
  · rw [hie]
    simpa using hr
  · rw [Bool.not_eq_true] at hie
    rw [hie]
    simp only [Bool.false_eq_true, if_false]
    rcases ind with _ | inds <;> exact rect_foldl_coerce _ t hr

theorem astypeInt64_ok_inv (cells out : List Cell)
    (h : astypeInt64 cells = .ok out) :
    out = cells ∧ ∀ q : Rat, Cell.num q ∈ cells → q.den = 1 := by
  unfold astypeInt64 at h
  split at h
  · cases h
  · rename_i hcond
    injection h with h2
    refine ⟨h2.symm, ?_⟩
    intro q hq
    rw [Bool.not_eq_true, List.any_eq_false] at hcond
    have := hcond (Cell.num q) hq
    simpa using this

theorem detect_ok_length (cells ts : List Cell) (flag : Bool)
    (h : detectAndNormalizeTimeSeries cells = .ok (ts, flag)) :
    ts.length = cells.length := by
  unfold detectAndNormalizeTimeSeries at h
  dsimp only at h
  split at h
  · injection h with h2
    have h3 : ts = cells.map toNumeric := (congrArg Prod.fst h2).symm
    rw [h3]
    simp
  · split at h
    · injection h with h2
      have h3 : ts = (cells.map toNumeric).map msToS :=
        (congrArg Prod.fst h2).symm
      rw [h3]
      simp
    · rcases ha : astypeInt64 (cells.map toNumeric) with e | casted <;>
        rw [ha] at h
      · cases h
      · rw [exbind_ok] at h
        injection h with h2
        have h3 : ts = casted := (congrArg Prod.fst h2).symm
        obtain ⟨hco, _⟩ := astypeInt64_ok_inv _ _ ha
        rw [h3, hco]
        simp

theorem detect_ok_int_shape (cells ts : List Cell) (flag : Bool)
    (h : detectAndNormalizeTimeSeries cells = .ok (ts, flag)) :
    ∀ c ∈ ts, c = Cell.null ∨ ∃ q : Rat, c = Cell.num q ∧ q.den = 1 := by
  unfold detectAndNormalizeTimeSeries at h
  dsimp only at h
  split at h
  · rename_i hvals
    rw [List.isEmpty_eq_true] at hvals
    injection h with h2
    have h3 : ts = cells.map toNumeric := (congrArg Prod.fst h2).symm
    subst h3
    intro c hc
    rcases List.mem_map.mp hc with ⟨c0, hc0, rfl⟩
    rcases toNumeric_shape c0 with hn | ⟨q, hq⟩
    · exact Or.inl hn
    · exfalso
      have hmem : q ∈ (cells.map toNumeric).filterMap numVal :=
        List.mem_filterMap.mpr ⟨toNumeric c0, List.mem_map_of_mem _ hc0,
          by rw [hq]; rfl⟩
      rw [hvals] at hmem
      cases hmem
  · split at h
    · injection h with h2
      have h3 : ts = (cells.map toNumeric).map msToS :=
        (congrArg Prod.fst h2).symm
      subst h3
      intro c hc
      rcases List.mem_map.mp hc with ⟨c1, hc1, rfl⟩
      rcases List.mem_map.mp hc1 with ⟨c0, _, rfl⟩
      rcases toNumeric_shape c0 with hn | ⟨q, hq⟩
      · rw [hn]
        exact Or.inl rfl
      · rw [hq]
        exact Or.inr ⟨_, rfl, by simp [msToS]⟩
    · rcases ha : astypeInt64 (cells.map toNumeric) with e | casted <;>
        rw [ha] at h
      · cases h
      · rw [exbind_ok] at h
        injection h with h2
        have h3 : ts = casted := (congrArg Prod.fst h2).symm
        obtain ⟨hco, hint⟩ := astypeInt64_ok_inv _ _ ha
        subst h3
        rw [hco]
        intro c hc
        rcases List.mem_map.mp hc with ⟨c0, _, rfl⟩
        rcases toNumeric_shape c0 with hn | ⟨q, hq⟩
        · exact Or.inl hn
        · refine Or.inr ⟨q, hq, hint q ?_⟩
          rw [← hq]
          exact hc

theorem finalTimeCast_ok_inv (x u : Table) (h : finalTimeCast x = .ok u) :
    u = x ∧ (∀ vs, getCol x "time" = some vs →
      (∀ c ∈ vs, c = Cell.null) ∨ (∀ c ∈ vs, c ≠ Cell.null)) := by
  unfold finalTimeCast at h
  split at h
  · rename_i hcond
    split at h
    · cases h
    · rename_i hnany
      injection h with h2
      refine ⟨h2.symm, ?_⟩
      intro vs hvs
      right
      rw [Bool.not_eq_true, List.any_eq_false] at hnany
      intro c hc hcn
      have hgd : getColD x "time" = vs := by rw [getColD, hvs]; rfl
      have := hnany c (hgd ▸ hc)
      rw [hcn] at this
      simp at this
  · rename_i hcond
    injection h with h2
    refine ⟨h2.symm, ?_⟩
    intro vs hvs
    left
    rw [Bool.not_eq_true, Bool.and_eq_false_iff] at hcond
    rcases hcond with hnc | hall
    · have : hasCol x "time" = true := (hasCol_true_iff x "time").mpr ⟨vs, hvs⟩
      rw [this] at hnc
      cases hnc
    · have hall2 : (getColD x "time").all (fun c => c == Cell.null) = true
          := by simpa using hall
      rw [List.all_eq_true] at hall2
      intro c hc
      have hgd : getColD x "time" = vs := by rw [getColD, hvs]; rfl
      have := hall2 c (hgd ▸ hc)
      simpa using this

theorem foldl_coerce_eq_self (names : List String) :
    ∀ t : Table, (t.cols.map Prod.fst).Nodup →
      (∀ c ∈ names, (getColD t c).map toNumeric = getColD t c) →
      names.foldl (fun acc c => setCol acc c ((getColD acc c).map toNumeric))
        t = t := by
  induction names with
  | nil =>
    intro t _ _
    rfl
  | cons n rest ih =>
    intro t hnd h
    rw [List.foldl_cons]
    have hstep : setCol t n ((getColD t n).map toNumeric) = t := by
      rw [h n (List.mem_cons_self n rest)]
      by_cases hc : hasCol t n = true
      · obtain ⟨vs, hvs⟩ := (hasCol_true_iff t n).mp hc
        have hgd : getColD t n = vs := by rw [getColD, hvs]; rfl
        rw [hgd]
        exact setCol_self t n vs hnd hvs
      · rw [Bool.not_eq_true] at hc
        exact setCol_of_hasCol_false t n _ hc
    rw [hstep]
    exact ih t hnd (fun c hcm => h c (List.mem_cons_of_mem n hcm))

theorem getCol_coerceIndicators_cases (t : Table) (ind : Option (List String))
    (c : String) :
    getCol (coerceIndicators t ind) c = getCol t c ∨
    getCol (coerceIndicators t ind) c = (getCol t c).map (List.map toNumeric)
    := by
  unfold coerceIndicators
  by_cases hie : isEmpty t = true
  · rw [hie]
    simp
  · rw [Bool.not_eq_true] at hie
    rw [hie]
    simp only [Bool.false_eq_true, if_false]
    rcases ind with _ | inds <;>
      dsimp only <;>
      rw [coerce_foldl_getCol] <;>
      split_ifs <;>
      simp

theorem map_getD_range (vs : List Cell) :
    (List.range vs.length).map (fun i => vs.getD i Cell.null) = vs := by
  apply List.ext_getElem
  · simp
  · intro n h1 h2
    rw [List.getElem_map, List.getElem_range,
      List.getD_eq_getElem vs Cell.null (by simpa using h2)]

theorem selectRows_range_eq_self (t : Table)
    (hnd : (t.cols.map Prod.fst).Nodup)
    (hrect : ∀ p ∈ t.cols, p.2.length = nRows t) :
    selectRows t (List.range (nRows t)) = t := by
  apply table_ext
  · exact names_selectRows t _
  · rw [names_selectRows]
    exact hnd
  · intro c
    rw [getCol_selectRows]
    rcases hg : getCol t c with _ | vs
    · rfl
    · simp only [Option.map_some']
      have hlen : vs.length = nRows t := by
        unfold getCol at hg
        rcases hf : t.cols.find? (fun r => r.1 == c) with _ | p <;>
          rw [hf] at hg
        · cases hg
        · injection hg with hg2
          rw [← hg2]
          exact hrect p (List.mem_of_find?_eq_some hf)
      rw [← hlen, map_getD_range]

theorem rowComplete_iff (t : Table) (i : Nat) :
    rowComplete t i = true ↔
      ∀ c ∈ REQUIRED_COLUMNS, (getColD t c).getD i Cell.null ≠ Cell.null
    := by
  unfold rowComplete
  rw [List.all_eq_true]
  constructor
  · intro h c hc
    have := h c hc
    simpa using this
  · intro h c hc
    simpa using h c hc

theorem tfix_of_int_shape (l : List Cell)
    (h : ∀ x ∈ l, x = Cell.null ∨ ∃ q : Rat, x = Cell.num q ∧ q.den = 1) :
    l.map toNumeric = l := by
  apply map_toNumeric_id_of_shape
  intro c hc
  rcases h c hc with rfl | ⟨q, rfl, _⟩
  · exact Or.inl rfl
  · exact Or.inr ⟨q, rfl⟩

theorem selected_shape (vs : List Cell) (idxs : List Nat)
    (P : Cell → Prop) (hnull : P Cell.null) (h : ∀ x ∈ vs, P x) :
    ∀ x ∈ idxs.map (fun i => vs.getD i Cell.null), P x := by
  intro x hx
  rcases List.mem_map.mp hx with ⟨i, _, rfl⟩
  by_cases hi : i < vs.length
  · rw [List.getD_eq_getElem vs Cell.null hi]
    exact h _ (vs.getElem_mem hi)
  · rw [List.getD_eq_default _ _ (by omega)]
    exact hnull

theorem getCol_length_of_rect (t : Table)
    (hrect : ∀ p ∈ t.cols, p.2.length = nRows t)
    (c : String) (vs : List Cell) (h : getCol t c = some vs) :
    vs.length = nRows t := by
  unfold getCol at h
  rcases hf : t.cols.find? (fun p => p.1 == c) with _ | p <;> rw [hf] at h
  · cases h
  · injection h with h2
    rw [← h2]
    exact hrect p (List.mem_of_find?_eq_some hf)

theorem isEmpty_false_parts (t : Table) (h : isEmpty t = false) :
    t.cols ≠ [] ∧ nRows t ≠ 0 := by
  unfold isEmpty at h
  rw [Bool.or_eq_false_iff] at h
  refine ⟨?_, ?_⟩
  · simpa using h.1
  · simpa using h.2

theorem nRows_selectRows (t : Table) (idxs : List Nat) (h : t.cols ≠ []) :
    nRows (selectRows t idxs) = idxs.length := by
  obtain ⟨cols⟩ := t
  rcases cols with _ | ⟨p, ps⟩
  · exact absurd rfl h
  · unfold selectRows nRows
    simp

theorem getColD_selectRows (t : Table) (idxs : List Nat) (c : String)
    (h : hasCol t c = true) :
    getColD (selectRows t idxs) c =
      idxs.map (fun i => (getColD t c).getD i Cell.null) := by
  obtain ⟨vs, hvs⟩ := (hasCol_true_iff t c).mp h
  rw [getColD, getCol_selectRows, hvs, getColD, hvs]
  rfl

theorem getColD_selectRows_shape (t : Table) (idxs : List Nat) (c : String)
    (P : Cell → Prop) (hnull : P Cell.null) (h : ∀ x ∈ getColD t c, P x) :
    ∀ x ∈ getColD (selectRows t idxs) c, P x := by
  by_cases hc : hasCol t c = true
  · rw [getColD_selectRows t idxs c hc]
    exact selected_shape _ idxs P hnull h
  · rw [Bool.not_eq_true] at hc
    rw [getColD, getCol_selectRows, getCol_of_hasCol_false t c hc]
    intro x hx
    simp at hx

theorem rowComplete_congr (t1 t2 : Table) (i : Nat)
    (h : ∀ c ∈ REQUIRED_COLUMNS, getColD t1 c = getColD t2 c) :
    rowComplete t1 i = rowComplete t2 i := by
  unfold rowComplete
  simp only [REQUIRED_COLUMNS, List.all_cons, List.all_nil]
  rw [h "time" (by decide), h "open" (by decide), h "high" (by decide),
    h "low" (by decide), h "close" (by decide), h "volume" (by decide)]

theorem nRows_foldl_coerce (names : List String) :
    ∀ t : Table, nRows (names.foldl
      (fun acc c => setCol acc c ((getColD acc c).map toNumeric)) t) =
      nRows t := by
  induction names with
  | nil =>
    intro t
    rfl
  | cons n rest ih =>
    intro t
    rw [List.foldl_cons, ih]
    apply nRows_setCol
    intro ws hws
    rw [getColD, hws]
    simp

theorem nRows_coerceIndicators (t : Table) (ind : Option (List String)) :
    nRows (coerceIndicators t ind) = nRows t := by
  unfold coerceIndicators
  by_cases hie : isEmpty t = true
  · rw [hie]
    simp
  · rw [Bool.not_eq_true] at hie
    rw [hie]
    simp only [Bool.false_eq_true, if_false]
    rcases ind with _ | inds <;> exact nRows_foldl_coerce _ t

theorem dropIncompleteRows_complete (t : Table) (hcne : t.cols ≠ [])
    (i : Nat) (hi : i < nRows (dropIncompleteRows t)) :
    rowComplete (dropIncompleteRows t) i = true := by
  unfold dropIncompleteRows at hi ⊢
  rw [nRows_selectRows t _ hcne] at hi
  have hmem : ((List.range (nRows t)).filter (rowComplete t))[i] ∈
      (List.range (nRows t)).filter (rowComplete t) := List.getElem_mem hi
  have hcompj := (List.mem_filter.mp hmem).2
  rw [rowComplete_iff]
  intro c hc
  have hneqj := (rowComplete_iff t _).mp hcompj c hc
  have hcol : hasCol t c = true := by
    by_contra hnc
    rw [Bool.not_eq_true] at hnc
    rw [getColD, getCol_of_hasCol_false t c hnc] at hneqj
    exact hneqj rfl
  rw [getColD_selectRows t _ c hcol]
  rw [List.getD_eq_getElem _ Cell.null (by simpa using hi), List.getElem_map]
  exact hneqj

theorem getCol_coerceIndicators_mem (t : Table) (ind : Option (List String))
    (c : String) (hne : isEmpty t = false)
    (hb : c ∈ ind.getD INDICATOR_DEFAULTS) (hhc : hasCol t c = true) :
    getCol (coerceIndicators t ind) c = (getCol t c).map (List.map toNumeric)
    := by
  unfold coerceIndicators
  rw [hne]
  simp only [Bool.false_eq_true, if_false]
  rcases ind with _ | inds
  · dsimp only
    rw [coerce_foldl_getCol,
      if_pos (List.mem_filter.mpr ⟨by simpa using hb, hhc⟩)]
  · dsimp only
    rw [coerce_foldl_getCol,
      if_pos (List.mem_filter.mpr ⟨by simpa using hb, hhc⟩)]

theorem setCol_getColD (t : Table) (c : String)
    (hnd : (t.cols.map Prod.fst).Nodup) (hc : hasCol t c = true) :
    setCol t c (getColD t c) = t := by
  obtain ⟨vs, hvs⟩ := (hasCol_true_iff t c).mp hc
  have hgd : getColD t c = vs := by rw [getColD, hvs]; rfl
  rw [hgd]
  exact setCol_self t c vs hnd hvs

theorem getColD_coerceIndicators_of_shape (t : Table)
    (ind : Option (List String)) (c : String)
    (hsh : ∀ x ∈ getColD t c, x = Cell.null ∨ ∃ q, x = Cell.num q) :
    getColD (coerceIndicators t ind) c = getColD t c := by
  rcases getCol_coerceIndicators_cases t ind c with h | h
  · rw [getColD, h, getColD]
  · rcases hg : getCol t c with _ | vs
    · rw [getColD, h, hg, getColD, hg]
      rfl
    · have hvs : getColD t c = vs := by rw [getColD, hg]; rfl
      rw [getColD, h, hg]
      simp only [Option.map_some', Option.getD_some]
      rw [hvs]
      exact map_toNumeric_id_of_shape vs (hvs ▸ hsh)

theorem normalize_ok_decomp (t : Table) (dI : Bool)
    (ind : Option (List String)) (u : Table)
    (het : isEmpty t = false)
    (hnd : (t.cols.map Prod.fst).Nodup)
    (hfix : ∀ nm ∈ t.cols.map Prod.fst, canonName nm = nm)
    (hrect : ∀ p ∈ t.cols, p.2.length = nRows t)
    (hneu : isEmpty u = false)
    (hn : normalize t dI ind = .ok u) :
    u.cols.map Prod.fst = t.cols.map Prod.fst ∧
    (∀ p ∈ u.cols, p.2.length = nRows u) ∧
    (∀ x ∈ getColD u "time",
      x = Cell.null ∨ ∃ q : Rat, x = Cell.num q ∧ q.den = 1) ∧
    (∀ c ∈ ["open", "high", "low", "close"], ∀ x ∈ getColD u c,
      x = Cell.null ∨ ∃ q : Rat, x = Cell.num q) ∧
    (∀ x ∈ getColD u "volume",
      x = Cell.null ∨ ∃ q : Rat, x = Cell.num q ∧ q.den = 1) ∧
    (dI = true → ∀ i, i < nRows u → rowComplete u i = true) ∧
    ((∀ x ∈ getColD u "time", x = Cell.null) ∨
      (∀ x ∈ getColD u "time", x ≠ Cell.null)) ∧
    (∀ c, hasCol u c = true → c ∈ ind.getD INDICATOR_DEFAULTS →
      (getColD u c).map toNumeric = getColD u c) := by
  unfold normalize at hn
  rw [het] at hn
  simp only [Bool.false_eq_true, if_false] at hn
  rw [renameCanonical_eq_self t hfix, collapse_of_nodup t hnd] at hn
  try dsimp only at hn
  split at hn
  · cases hn
  · rename_i hM
    have hMe : REQUIRED_COLUMNS.filter (fun c => !hasCol t c) = [] := by
      rcases hh : REQUIRED_COLUMNS.filter (fun c => !hasCol t c) with _ | ⟨a, as⟩
      · rfl
      · exfalso
        apply hM
        rw [hh]
        rfl
    have hreq : ∀ c ∈ REQUIRED_COLUMNS, hasCol t c = true :=
      hasCol_of_required_filter_nil t hMe
    have hreqT : hasCol t "time" = true := hreq "time" (by decide)
    have hreqV : hasCol t "volume" = true := hreq "volume" (by decide)
    rcases hdet : detectAndNormalizeTimeSeries (getColD t "time") with e | td
    · rw [hdet, exbind_err] at hn
      cases hn
    · rw [hdet, exbind_ok] at hn
      obtain ⟨ts, flag⟩ := td
      try dsimp only at hn
      set w1 : Table := setCol t "time" ts with hw1
      set w2 : Table := List.foldl
        (fun w c => setCol w c ((getColD w c).map toNumeric)) w1
        ["open", "high", "low", "close"] with hw2
      rcases hvolc : astypeInt64 ((getColD w2 "volume").map toNumeric)
        with e | vol
      · rw [hvolc, exbind_err] at hn
        cases hn
      · rw [hvolc, exbind_ok] at hn
        try dsimp only at hn
        set w3 : Table := setCol w2 "volume" vol with hw3
        set w4 : Table := if dI = true then dropIncompleteRows w3 else w3
          with hw4
        clear_value w4
        clear_value w3
        clear_value w2
        clear_value w1
        obtain ⟨hu, hhomog0⟩ := finalTimeCast_ok_inv _ u hn
        have hnames1 : w1.cols.map Prod.fst = t.cols.map Prod.fst := by
          rw [hw1]
          exact names_setCol t "time" ts
        have hnames2 : w2.cols.map Prod.fst = t.cols.map Prod.fst := by
          rw [hw2, names_foldl_coerce, hnames1]
        have hnames3 : w3.cols.map Prod.fst = t.cols.map Prod.fst := by
          rw [hw3, names_setCol, hnames2]
        have hnames4 : w4.cols.map Prod.fst = t.cols.map Prod.fst := by
          rw [hw4]
          rcases dI
          · rw [if_neg (by decide)]
            exact hnames3
          · rw [if_pos rfl, names_dropIncompleteRows]
            exact hnames3
        have hnamesU : u.cols.map Prod.fst = t.cols.map Prod.fst := by
          rw [hu, names_coerceIndicators, hnames4]
        have hrect1 : ∀ p ∈ w1.cols, p.2.length = nRows w1 := by
          rw [hw1]
          apply rect_setCol t "time" ts hrect
          intro ws hws
          have hl := detect_ok_length _ _ _ hdet
          rw [getColD, hws] at hl
          simpa using hl
        have hrect2 : ∀ p ∈ w2.cols, p.2.length = nRows w2 := by
          rw [hw2]
          exact rect_foldl_coerce _ w1 hrect1
        have hvolinv := astypeInt64_ok_inv _ _ hvolc
        have hrect3 : ∀ p ∈ w3.cols, p.2.length = nRows w3 := by
          rw [hw3]
          apply rect_setCol w2 "volume" vol hrect2
          intro ws hws
          rw [hvolinv.1, getColD, hws]
          simp
        have hrect4 : ∀ p ∈ w4.cols, p.2.length = nRows w4 := by
          rw [hw4]
          rcases dI
          · rw [if_neg (by decide)]
            exact hrect3
          · rw [if_pos rfl]
            unfold dropIncompleteRows
            exact rect_selectRows w3 _
        have hrectU : ∀ p ∈ u.cols, p.2.length = nRows u := by
          rw [hu]
          exact rect_coerceIndicators w4 ind hrect4
        have hcolT3 : getCol w3 "time" = some ts := by
          rw [hw3, getCol_setCol_ne w2 "volume" "time" vol (by decide), hw2,
            coerce_foldl_getCol, if_neg (by decide), hw1,
            getCol_setCol_same t "time" ts hreqT]
        have hcolO3 : ∀ c ∈ ["open", "high", "low", "close"],
            getCol w3 c = (getCol t c).map (List.map toNumeric) := by
          intro c hc
          have hcv : c ≠ "volume" := by
            intro hh
            rw [hh] at hc
            exact absurd hc (by decide)
          have hct : c ≠ "time" := by
            intro hh
            rw [hh] at hc
            exact absurd hc (by decide)
          rw [hw3, getCol_setCol_ne w2 "volume" c vol hcv, hw2,
            coerce_foldl_getCol, if_pos hc, hw1,
            getCol_setCol_ne t "time" c ts hct]
        have hhcV2 : hasCol w2 "volume" = true := by
          rw [hasCol_congr_names w2 t hnames2]
          exact hreqV
        have hcolV3 : getCol w3 "volume" = some vol := by
          rw [hw3]
          exact getCol_setCol_same w2 "volume" vol hhcV2
        have hshT3 : ∀ x ∈ getColD w3 "time",
            x = Cell.null ∨ ∃ q : Rat, x = Cell.num q ∧ q.den = 1 := by
          rw [getColD, hcolT3]
          exact detect_ok_int_shape _ _ _ hdet
        have hshO3 : ∀ c ∈ ["open", "high", "low", "close"],
            ∀ x ∈ getColD w3 c,
            x = Cell.null ∨ ∃ q : Rat, x = Cell.num q := by
          intro c hc x hx
          rw [getColD, hcolO3 c hc] at hx
          rcases hg : getCol t c with _ | vs
          · rw [hg] at hx
            simp at hx
          · rw [hg] at hx
            simp only [Option.map_some', Option.getD_some] at hx
            rcases List.mem_map.mp hx with ⟨x0, _, rfl⟩
            exact toNumeric_shape x0
        have hshV3 : ∀ x ∈ getColD w3 "volume",
            x = Cell.null ∨ ∃ q : Rat, x = Cell.num q ∧ q.den = 1 := by
          intro x hx
          rw [getColD, hcolV3] at hx
          simp only [Option.getD_some] at hx
          rw [hvolinv.1] at hx
          rcases List.mem_map.mp hx with ⟨x0, hx0, rfl⟩
          rcases toNumeric_shape x0 with hn0 | ⟨q, hq⟩
          · exact Or.inl hn0
          · refine Or.inr ⟨q, hq, hvolinv.2 q ?_⟩
            rw [← hq]
            exact List.mem_map_of_mem toNumeric hx0
        have hshT4 : ∀ x ∈ getColD w4 "time",
            x = Cell.null ∨ ∃ q : Rat, x = Cell.num q ∧ q.den = 1 := by
          rw [hw4]
          rcases dI
          · rw [if_neg (by decide)]
            exact hshT3
          · rw [if_pos rfl]
            unfold dropIncompleteRows
            exact getColD_selectRows_shape w3 _ "time" _ (Or.inl rfl) hshT3
        have hshO4 : ∀ c ∈ ["open", "high", "low", "close"],
            ∀ x ∈ getColD w4 c,
            x = Cell.null ∨ ∃ q : Rat, x = Cell.num q := by
          intro c hc
          rw [hw4]
          rcases dI
          · rw [if_neg (by decide)]
            exact hshO3 c hc
          · rw [if_pos rfl]
            unfold dropIncompleteRows
            exact getColD_selectRows_shape w3 _ c _ (Or.inl rfl) (hshO3 c hc)
        have hshV4 : ∀ x ∈ getColD w4 "volume",
            x = Cell.null ∨ ∃ q : Rat, x = Cell.num q ∧ q.den = 1 := by
          rw [hw4]
          rcases dI
          · rw [if_neg (by decide)]
            exact hshV3
          · rw [if_pos rfl]
            unfold dropIncompleteRows
            exact getColD_selectRows_shape w3 _ "volume" _ (Or.inl rfl) hshV3
        have hne4 : isEmpty w4 = false := by
          rcases hie : isEmpty w4
          · rfl
          · exfalso
            rw [hu] at hneu
            unfold coerceIndicators at hneu
            rw [hie, if_pos rfl, hie] at hneu
            cases hneu
        have hgduT : getColD u "time" = getColD w4 "time" := by
          rw [hu]
          apply getColD_coerceIndicators_of_shape
          intro x hx
          rcases hshT4 x hx with h0 | ⟨q, hq, _⟩
          · exact Or.inl h0
          · exact Or.inr ⟨q, hq⟩
        have hgduO : ∀ c ∈ ["open", "high", "low", "close"],
            getColD u c = getColD w4 c := by
          intro c hc
          rw [hu]
          exact getColD_coerceIndicators_of_shape w4 ind c (hshO4 c hc)
        have hgduV : getColD u "volume" = getColD w4 "volume" := by
          rw [hu]
          apply getColD_coerceIndicators_of_shape
          intro x hx
          rcases hshV4 x hx with h0 | ⟨q, hq, _⟩
          · exact Or.inl h0
          · exact Or.inr ⟨q, hq⟩
        have hshTU : ∀ x ∈ getColD u "time",
            x = Cell.null ∨ ∃ q : Rat, x = Cell.num q ∧ q.den = 1 := by
          rw [hgduT]
          exact hshT4
        have hshOU : ∀ c ∈ ["open", "high", "low", "close"],
            ∀ x ∈ getColD u c,
            x = Cell.null ∨ ∃ q : Rat, x = Cell.num q := by
          intro c hc
          rw [hgduO c hc]
          exact hshO4 c hc
        have hshVU : ∀ x ∈ getColD u "volume",
            x = Cell.null ∨ ∃ q : Rat, x = Cell.num q ∧ q.den = 1 := by
          rw [hgduV]
          exact hshV4
        have hcomplU : dI = true → ∀ i, i < nRows u → rowComplete u i = true
            := by
          intro hdI i hi
          have hw3ne : w3.cols ≠ [] := by
            intro hc
            apply (isEmpty_false_parts t het).1
            have h3 := hnames3
            rw [hc] at h3
            rcases hcols : t.cols with _ | ⟨p, ps⟩
            · rfl
            · rw [hcols] at h3
              cases h3
          have hnru : nRows u = nRows w4 := by
            rw [hu, nRows_coerceIndicators]
          have hrcomp : rowComplete u i = rowComplete w4 i := by
            apply rowComplete_congr
            intro c hc
            simp only [REQUIRED_COLUMNS, List.mem_cons,
              List.not_mem_nil, or_false] at hc
            rcases hc with rfl | rfl | rfl | rfl | rfl | rfl
            · exact hgduT
            · exact hgduO "open" (by decide)
            · exact hgduO "high" (by decide)
            · exact hgduO "low" (by decide)
            · exact hgduO "close" (by decide)
            · exact hgduV
          rw [hrcomp]
          rw [hnru, hw4, if_pos hdI] at hi
          rw [hw4, if_pos hdI]
          exact dropIncompleteRows_complete w3 hw3ne i hi
        have hhomogU : (∀ x ∈ getColD u "time", x = Cell.null) ∨
            (∀ x ∈ getColD u "time", x ≠ Cell.null) := by
          rcases hg : getCol u "time" with _ | vs
          · left
            intro x hx
            rw [getColD, hg] at hx
            simp at hx
          · have hgd : getColD u "time" = vs := by rw [getColD, hg]; rfl
            rw [hgd]
            exact hhomog0 vs (hu ▸ hg)
        have hindU : ∀ c, hasCol u c = true →
            c ∈ ind.getD INDICATOR_DEFAULTS →
            (getColD u c).map toNumeric = getColD u c := by
          intro c hcu hcb
          have hc4 : hasCol w4 c = true := by
            rw [hasCol_congr_names w4 u (by rw [hnames4, hnamesU])]
            exact hcu
          obtain ⟨vs, hvs⟩ := (hasCol_true_iff w4 c).mp hc4
          have hcu2 : getCol u c = some (vs.map toNumeric) := by
            rw [hu, getCol_coerceIndicators_mem w4 ind c hne4 hcb hc4, hvs]
            rfl
          have hgd : getColD u c = vs.map toNumeric := by
            rw [getColD, hcu2]
            rfl
          rw [hgd, map_toNumeric_idem]
        exact ⟨hnamesU, hrectU, hshTU, hshOU, hshVU, hcomplU, hhomogU, hindU⟩

/-- C8 (amended): `normalize` is idempotent on canonical-schema frames up
to repeated millisecond detection.  If a frame `t` satisfying the canonical
schema normalizes to a non-empty frame `u` whose time-column median does
not exceed 1e12 (so the ms→s floor division does not fire a second time),
then normalizing `u` with the same arguments returns `u` unchanged: the
canonicalization, duplicate collapse, numeric coercions, Int64/int64 casts,
dropna and indicator coercion are all fixed points on `u`. -/
theorem normalize_idempotent_amended (t : Table) (dI : Bool)
    (ind : Option (List String)) (u : Table)
    (hcs : CanonicalSchema t)
    (hn : normalize t dI ind = .ok u)
    (hneu : isEmpty u = false)
    (hmed : ¬ ratMedian ((getColD u "time").filterMap numVal) >
      ((10 ^ 12 : Int) : Rat)) :
    normalize u dI ind = .ok u := by
  obtain ⟨hnd, hfix, hreq, hrect, -, -, -⟩ := hcs
  have het : isEmpty t = false := by
    rcases hie : isEmpty t
    · rfl
    · exfalso
      unfold normalize at hn
      rw [hie, if_pos rfl] at hn
      injection hn with hu0
      have he : isEmpty emptyCanonical = true := by decide
      rw [← hu0, he] at hneu
      cases hneu
  obtain ⟨hnamesU, hrectU, hshT, hshO, hshV, hcompl, hhomog, hind⟩ :=
    normalize_ok_decomp t dI ind u het hnd hfix hrect hneu hn
  have hndU : (u.cols.map Prod.fst).Nodup := by
    rw [hnamesU]
    exact hnd
  have hfixU : ∀ nm ∈ u.cols.map Prod.fst, canonName nm = nm := by
    rw [hnamesU]
    exact hfix
  have hreqU : ∀ c ∈ REQUIRED_COLUMNS, hasCol u c = true := by
    intro c hc
    rw [hasCol_congr_names u t hnamesU]
    exact hreq c hc
  have hMU : REQUIRED_COLUMNS.filter (fun c => !hasCol u c) = [] := by
    apply List.filter_eq_nil_iff.mpr
    intro c hc
    rw [hreqU c hc]
    decide
  have hhcTU : hasCol u "time" = true := hreqU "time" (by decide)
  obtain ⟨tvs, htvs⟩ := (hasCol_true_iff u "time").mp hhcTU
  have hgdT : getColD u "time" = tvs := by rw [getColD, htvs]; rfl
  have hdet2 : detectAndNormalizeTimeSeries (getColD u "time") =
      .ok (getColD u "time", false) := by
    rcases hhomog with hA | hB
    · have hmapid : (getColD u "time").map toNumeric = getColD u "time" :=
        map_toNumeric_id_of_shape _ (fun x hx => Or.inl (hA x hx))
      have hfm : ((getColD u "time").map toNumeric).filterMap numVal = [] := by
        rw [hmapid]
        apply List.filterMap_eq_nil_iff.mpr
        intro x hx
        rw [hA x hx]
        rfl
      have hr := detect_ok_all_null _ hfm
      rw [hmapid] at hr
      exact hr
    · have hint : ∀ x ∈ getColD u "time",
          ∃ q : Rat, x = Cell.num q ∧ q.den = 1 := by
        intro x hx
        rcases hshT x hx with h0 | hq
        · exact absurd h0 (hB x hx)
        · exact hq
      have hmapid : (getColD u "time").map toNumeric = getColD u "time" :=
        tfix_of_int_shape _ (fun x hx => Or.inr (hint x hx))
      have hnever : (getColD u "time").filterMap numVal ≠ [] := by
        have hlen : tvs.length = nRows u :=
          getCol_length_of_rect u hrectU "time" tvs htvs
        have hnr : nRows u ≠ 0 := (isEmpty_false_parts u hneu).2
        rcases tvs with _ | ⟨x0, rest⟩
        · exact absurd (by rw [← hlen]; rfl : nRows u = 0) hnr
        · intro hfm
          have hx0 : x0 ∈ getColD u "time" := by
            rw [hgdT]
            exact List.mem_cons_self _ _
          obtain ⟨q0, hq0, -⟩ := hint x0 hx0
          have hq0m : q0 ∈ (getColD u "time").filterMap numVal :=
            List.mem_filterMap.mpr ⟨x0, hx0, by rw [hq0]; rfl⟩
          rw [hfm] at hq0m
          cases hq0m
      have hintq : ∀ q ∈ (getColD u "time").filterMap numVal, q.den = 1 := by
        intro q hq
        obtain ⟨x, hx, hxq⟩ := List.mem_filterMap.mp hq
        obtain ⟨q0, hq0, hd⟩ := hint x hx
        rw [hq0] at hxq
        injection hxq with hqq
        rw [← hqq]
        exact hd
      have hr := detect_ok_seconds (getColD u "time")
        (by rw [hmapid]; exact hnever)
        (by rw [hmapid]; exact hmed)
        (by rw [hmapid]; exact hintq)
      rw [hmapid] at hr
      exact hr
  have hsetT : setCol u "time" (getColD u "time") = u :=
    setCol_getColD u "time" hndU hhcTU
  have hfixO : ∀ c ∈ ["open", "high", "low", "close"],
      (getColD u c).map toNumeric = getColD u c := by
    intro c hc
    exact map_toNumeric_id_of_shape _ (hshO c hc)
  have hfoldO : List.foldl
      (fun w c => setCol w c ((getColD w c).map toNumeric)) u
      ["open", "high", "low", "close"] = u :=
    foldl_coerce_eq_self _ u hndU hfixO
  have hfixV : (getColD u "volume").map toNumeric = getColD u "volume" := by
    apply map_toNumeric_id_of_shape
    intro x hx
    rcases hshV x hx with h0 | ⟨q, hq, -⟩
    · exact Or.inl h0
    · exact Or.inr ⟨q, hq⟩
  have hvolok : astypeInt64 ((getColD u "volume").map toNumeric) =
      .ok (getColD u "volume") := by
    rw [hfixV]
    apply astypeInt64_ok_of_integral
    intro q hq
    obtain ⟨x, hx, hxq⟩ := List.mem_filterMap.mp hq
    rcases hshV x hx with h0 | ⟨q0, hq0, hd⟩
    · rw [h0] at hxq
      cases hxq
    · rw [hq0] at hxq
      injection hxq with hqq
      rw [← hqq]
      exact hd
  have hsetV : setCol u "volume" (getColD u "volume") = u :=
    setCol_getColD u "volume" hndU (hreqU "volume" (by decide))
  have hdropif : (if dI = true then dropIncompleteRows u else u) = u := by
    rcases dI
    · rfl
    · rw [if_pos rfl]
      unfold dropIncompleteRows
      have hfilter : (List.range (nRows u)).filter (rowComplete u) =
          List.range (nRows u) := by
        apply List.filter_eq_self.mpr
        intro i hi
        exact hcompl rfl i (List.mem_range.mp hi)
      rw [hfilter]
      exact selectRows_range_eq_self u hndU hrectU
  have hcoerceU : coerceIndicators u ind = u := by
    unfold coerceIndicators
    rw [hneu]
    simp only [Bool.false_eq_true, if_false]
    rcases ind with _ | inds
    · dsimp only
      apply foldl_coerce_eq_self _ u hndU
      intro c hc
      have hm := List.mem_filter.mp hc
      exact hind c hm.2 (by simpa using hm.1)
    · dsimp only
      apply foldl_coerce_eq_self _ u hndU
      intro c hc
      have hm := List.mem_filter.mp hc
      exact hind c hm.2 (by simpa using hm.1)
  have hftc : finalTimeCast u = .ok u := by
    apply finalTimeCast_ok_of_homog
    intro vs hvs
    have hgd : getColD u "time" = vs := by rw [getColD, hvs]; rfl
    rw [← hgd]
    exact hhomog
  unfold normalize
  rw [hneu]
  simp only [Bool.false_eq_true, if_false]
  rw [renameCanonical_eq_self u hfixU, collapse_of_nodup u hndU]
  try dsimp only
  rw [hMU]
  rw [if_neg (by decide)]
  rw [hdet2, exbind_ok]
  try dsimp only
  rw [hsetT, hfoldO, hvolok, exbind_ok]
  try dsimp only
  rw [hsetV, hdropif, hcoerceU]
  exact hftc

/-- Witness for C8 (amended): a one-row canonical frame with second-scale
time is a fixed point of `normalize`. -/
theorem normalize_idempotent_amended_witness :
    normalize (Table.mk [("time", [Cell.num 100]), ("open", [Cell.num 1]),
      ("high", [Cell.num 2]), ("low", [Cell.num 0]), ("close", [Cell.num 1]),
      ("volume", [Cell.num 3])]) true none =
    .ok (Table.mk [("time", [Cell.num 100]), ("open", [Cell.num 1]),
      ("high", [Cell.num 2]), ("low", [Cell.num 0]), ("close", [Cell.num 1]),
      ("volume", [Cell.num 3])]) :=
  normalize_idempotent_amended
    (Table.mk [("time", [Cell.num 100]), ("open", [Cell.num 1]),
      ("high", [Cell.num 2]), ("low", [Cell.num 0]), ("close", [Cell.num 1]),
      ("volume", [Cell.num 3])]) true none
    (Table.mk [("time", [Cell.num 100]), ("open", [Cell.num 1]),
      ("high", [Cell.num 2]), ("low", [Cell.num 0]), ("close", [Cell.num 1]),
      ("volume", [Cell.num 3])])
    (by decide) (by decide) (by decide) (by decide)

/-- C8 (counterexample): `normalize` is not unconditionally idempotent on
canonical-schema frames.  A canonical one-row frame with time 2·10^15
normalizes (one ms→s floor division) to time 2·10^12; that output's median
still exceeds 1e12, so the second `normalize` divides by 1000 again,
producing time 2·10^9 ≠ 2·10^12. -/
theorem normalize_idempotent_counterexample :
    CanonicalSchema (Table.mk [("time", [Cell.num 2000000000000000]),
      ("open", [Cell.num 1]), ("high", [Cell.num 2]), ("low", [Cell.num 0]),
      ("close", [Cell.num 1]), ("volume", [Cell.num 1])]) ∧
    normalize (Table.mk [("time", [Cell.num 2000000000000000]),
      ("open", [Cell.num 1]), ("high", [Cell.num 2]), ("low", [Cell.num 0]),
      ("close", [Cell.num 1]), ("volume", [Cell.num 1])]) true none =
      .ok (Table.mk [("time", [Cell.num 2000000000000]),
        ("open", [Cell.num 1]), ("high", [Cell.num 2]), ("low", [Cell.num 0]),
        ("close", [Cell.num 1]), ("volume", [Cell.num 1])]) ∧
    normalize (Table.mk [("time", [Cell.num 2000000000000]),
      ("open", [Cell.num 1]), ("high", [Cell.num 2]), ("low", [Cell.num 0]),
      ("close", [Cell.num 1]), ("volume", [Cell.num 1])]) true none =
      .ok (Table.mk [("time", [Cell.num 2000000000]),
        ("open", [Cell.num 1]), ("high", [Cell.num 2]), ("low", [Cell.num 0]),
        ("close", [Cell.num 1]), ("volume", [Cell.num 1])]) ∧
    Table.mk [("time", [Cell.num 2000000000]),
        ("open", [Cell.num 1]), ("high", [Cell.num 2]), ("low", [Cell.num 0]),
        ("close", [Cell.num 1]), ("volume", [Cell.num 1])] ≠
      Table.mk [("time", [Cell.num 2000000000000]),
        ("open", [Cell.num 1]), ("high", [Cell.num 2]), ("low", [Cell.num 0]),
        ("close", [Cell.num 1]), ("volume", [Cell.num 1])] := by
  refine ⟨by decide, by decide, by decide, by decide⟩

end TVParser
